import Mathlib

/-! Load balancing strategies (`src/main.cpp`).

A shallow embedding of the five selection strategies of `src/main.cpp`
(`RoundRobin`, `WeightedRoundRobin`, `LeastConnections`, `LeastResponseTime`,
`IPHash`) together with the part of `main` that drives them.

Conventions of the embedding.

* A `std::vector<Server>` is a `List Server`; `servers[i]` is a checked read that
  yields `Failure.outOfRange` where the C++ read is out of range.
* The `int` fields (`weight`, `connections`, `currentWeight`) and the millisecond
  count of `responseTime` are `Int`.  `currentIndex` only ever holds the result of
  `... % servers.size()` or its initial `0`, so it is a `Nat`; pools are taken to
  have fewer than `2^31` servers, so that no `int` operation of the source leaves
  the range of `int`.
* Every member function takes the object state and returns the result together
  with the new state, inside `Except Failure`.
* The `while (true)` loop of `WeightedRoundRobin::getNextServer` is run with an
  explicit bound on the number of iterations (`fuel`).
-/

namespace LoadBalancing

/-- Ways in which an operation does not produce a result.  The first three are the
error kinds the specification names; no statement of the source raises them.  The
next three are the undefined behaviours the source can run into.  The last one is
not a behaviour of the program: the iteration bound of the model was reached. -/
inductive Failure where
  | InvalidPool
  | EmptyPool
  | MissingKey
  | divisionByZero
  | outOfRange
  | endDereference
  | outOfFuel
  deriving DecidableEq, Repr

/-- The class `Server` (lines 8-16). -/
structure Server where
  ip : String
  weight : Int
  connections : Int
  responseTime : Int
  deriving DecidableEq, Repr

/-- The constructor `Server(ip, weight)`: `connections(0), responseTime(0)`. -/
def Server.new (ip : String) (weight : Int) : Server :=
  ⟨ip, weight, 0, 0⟩

/-- A `Server&` into the vector held by a strategy: the position referred to and
the object stored there. -/
structure ServerRef where
  position : Nat
  server : Server
  deriving DecidableEq, Repr

/-- The read `servers[i]` of a `std::vector<Server>`. -/
def index (servers : List Server) (i : Nat) : Except Failure ServerRef :=
  match servers[i]? with
  | some server => .ok ⟨i, server⟩
  | none => .error .outOfRange

/-! ## The library algorithms `std::min_element` and `std::max_element` -/

/-- The loop of `std::min_element(first, last, comp)` after its first element:
`if (comp(*first, *smallest)) smallest = first;` for each further element.
`smallest` is the iterator kept so far (position and object), `i` the position
of the head of the remaining range. -/
def minElementFrom {α : Type} (comp : α → α → Bool) : List α → Nat × α → Nat → Nat × α
  | [], smallest, _ => smallest
  | x :: xs, smallest, i =>
    if comp x smallest.2 then minElementFrom comp xs (i, x) (i + 1)
    else minElementFrom comp xs smallest (i + 1)

/-- The algorithm `std::min_element(first, last, comp)`: the iterator to the first
smallest element; `none` is `last`, returned for the empty range. -/
def minElement {α : Type} (comp : α → α → Bool) : List α → Option (Nat × α)
  | [] => none
  | x :: xs => some (minElementFrom comp xs (0, x) 1)

/-- The loop of `std::max_element(first, last, comp)` after its first element:
`if (comp(*largest, *first)) largest = first;` for each further element. -/
def maxElementFrom {α : Type} (comp : α → α → Bool) : List α → Nat × α → Nat → Nat × α
  | [], largest, _ => largest
  | x :: xs, largest, i =>
    if comp largest.2 x then maxElementFrom comp xs (i, x) (i + 1)
    else maxElementFrom comp xs largest (i + 1)

/-- The algorithm `std::max_element(first, last, comp)`: the iterator to the first
largest element; `none` is `last`, returned for the empty range. -/
def maxElement {α : Type} (comp : α → α → Bool) : List α → Option (Nat × α)
  | [] => none
  | x :: xs => some (maxElementFrom comp xs (0, x) 1)

/-! ## Round Robin (lines 18-32) -/

/-- The private members of `RoundRobin`. -/
structure RoundRobin where
  servers : List Server
  currentIndex : Nat
  deriving DecidableEq, Repr

/-- The constructor `RoundRobin(servers) : servers(servers), currentIndex(0)`. -/
def RoundRobin.new (servers : List Server) : RoundRobin :=
  ⟨servers, 0⟩

/-- The member `RoundRobin::getNextServer` (lines 27-31). -/
def RoundRobin.getNextServer (s : RoundRobin) : Except Failure (ServerRef × RoundRobin) :=
  match index s.servers s.currentIndex with
  | .error e => .error e
  | .ok server =>
    if s.servers.length = 0 then .error .divisionByZero
    else .ok (server, ⟨s.servers, (s.currentIndex + 1) % s.servers.length⟩)

/-! ## Weighted Round Robin (lines 34-60) -/

/-- The private members of `WeightedRoundRobin`. -/
structure WeightedRoundRobin where
  servers : List Server
  currentIndex : Nat
  currentWeight : Int
  deriving DecidableEq, Repr

/-- The constructor
`WeightedRoundRobin(servers) : servers(servers), currentIndex(0), currentWeight(0)`. -/
def WeightedRoundRobin.new (servers : List Server) : WeightedRoundRobin :=
  ⟨servers, 0, 0⟩

/-- The comparator `[](const Server& a, const Server& b) { return a.weight < b.weight; }`. -/
def weightLess (a b : Server) : Bool :=
  decide (a.weight < b.weight)

/-- How one pass through the body of `while (true)` ends: with a `return`, or at
the end of the body, to be run again. -/
inductive Iteration where
  | returned (server : ServerRef) (s : WeightedRoundRobin)
  | again (s : WeightedRoundRobin)
  deriving DecidableEq, Repr

/-- Lines 55-57: `if (servers[currentIndex].weight >= currentWeight) return
servers[currentIndex];`, with the members as already updated in this pass. -/
def WeightedRoundRobin.accept (s : WeightedRoundRobin) : Except Failure Iteration :=
  match index s.servers s.currentIndex with
  | .error e => .error e
  | .ok candidate =>
    if candidate.server.weight ≥ s.currentWeight then .ok (.returned candidate s)
    else .ok (.again s)

/-- One pass through the body of the `while (true)` loop (lines 46-57). -/
def WeightedRoundRobin.iteration (s : WeightedRoundRobin) : Except Failure Iteration :=
  if s.servers.length = 0 then .error .divisionByZero
  else
    let currentIndex := (s.currentIndex + 1) % s.servers.length
    if currentIndex = 0 then
      match index s.servers 0 with
      | .error e => .error e
      | .ok first =>
        match index s.servers 1 with
        | .error e => .error e
        | .ok second =>
          let currentWeight := s.currentWeight - Int.gcd first.server.weight second.server.weight
          if currentWeight ≤ 0 then
            match maxElement weightLess s.servers with
            | none => .error .endDereference
            | some (_, largest) =>
              if largest.weight = 0 then
                match index s.servers 0 with
                | .error e => .error e
                | .ok server => .ok (.returned server ⟨s.servers, currentIndex, largest.weight⟩)
              else WeightedRoundRobin.accept ⟨s.servers, currentIndex, largest.weight⟩
          else WeightedRoundRobin.accept ⟨s.servers, currentIndex, currentWeight⟩
    else WeightedRoundRobin.accept ⟨s.servers, currentIndex, s.currentWeight⟩

/-- The member `WeightedRoundRobin::getNextServer` (lines 44-59): the body of the
loop is run until it returns, at most `fuel` times. -/
def WeightedRoundRobin.getNextServer :
    Nat → WeightedRoundRobin → Except Failure (ServerRef × WeightedRoundRobin)
  | 0, _ => .error .outOfFuel
  | fuel + 1, s =>
    match s.iteration with
    | .error e => .error e
    | .ok (.returned server s1) => .ok (server, s1)
    | .ok (.again s1) => WeightedRoundRobin.getNextServer fuel s1

/-! ## Least Connections (lines 62-74) -/

/-- The private member of `LeastConnections`. -/
structure LeastConnections where
  servers : List Server
  deriving DecidableEq, Repr

/-- The constructor `LeastConnections(servers) : servers(servers)`. -/
def LeastConnections.new (servers : List Server) : LeastConnections :=
  ⟨servers⟩

/-- The comparator `a.connections < b.connections`. -/
def connectionsLess (a b : Server) : Bool :=
  decide (a.connections < b.connections)

/-- The member `LeastConnections::getNextServer` (lines 70-73): the dereferenced
result of `std::min_element`. -/
def LeastConnections.getNextServer (s : LeastConnections) :
    Except Failure (ServerRef × LeastConnections) :=
  match minElement connectionsLess s.servers with
  | none => .error .endDereference
  | some (i, server) => .ok (⟨i, server⟩, s)

/-! ## Least Response Time (lines 76-88) -/

/-- The private member of `LeastResponseTime`. -/
structure LeastResponseTime where
  servers : List Server
  deriving DecidableEq, Repr

/-- The constructor `LeastResponseTime(servers) : servers(servers)`. -/
def LeastResponseTime.new (servers : List Server) : LeastResponseTime :=
  ⟨servers⟩

/-- The comparator `a.responseTime < b.responseTime`. -/
def responseTimeLess (a b : Server) : Bool :=
  decide (a.responseTime < b.responseTime)

/-- The member `LeastResponseTime::getNextServer` (lines 84-87). -/
def LeastResponseTime.getNextServer (s : LeastResponseTime) :
    Except Failure (ServerRef × LeastResponseTime) :=
  match minElement responseTimeLess s.servers with
  | none => .error .endDereference
  | some (i, server) => .ok (⟨i, server⟩, s)

/-! ## IP Hash (lines 90-102) -/

/-- The private member of `IPHash`. -/
structure IPHash where
  servers : List Server
  deriving DecidableEq, Repr

/-- The constructor `IPHash(servers) : servers(servers)`. -/
def IPHash.new (servers : List Server) : IPHash :=
  ⟨servers⟩

/-- The member `IPHash::getNextServer` (lines 98-101).  The library function
`std::hash<std::string>` is not part of the source; it is the parameter `hash`,
giving the `size_t` value as a natural number. -/
def IPHash.getNextServer (hash : String → Nat) (s : IPHash) (clientIP : String) :
    Except Failure (ServerRef × IPHash) :=
  if s.servers.length = 0 then .error .divisionByZero
  else
    match index s.servers (hash clientIP % s.servers.length) with
    | .error e => .error e
    | .ok server => .ok (server, s)

/-- The sequence of calls `iphash.getNextServer(clientIP)` of the loop
`for (const auto& clientIP : clientIPs)` (lines 143-145): the references returned,
in order, and the final state. -/
def IPHash.callEach (hash : String → Nat) :
    List String → IPHash → Except Failure (List ServerRef × IPHash)
  | [], s => .ok ([], s)
  | clientIP :: clientIPs, s =>
    match IPHash.getNextServer hash s clientIP with
    | .error e => .error e
    | .ok (server, s1) =>
      match IPHash.callEach hash clientIPs s1 with
      | .error e => .error e
      | .ok (rest, s2) => .ok (server :: rest, s2)

/-! ## Repeated calls -/

/-- The loop `for (int i = 0; i < n; ++i) ... getNextServer() ...` of `main`
(lines 121-123, 126-128): `n` consecutive calls, collecting the references
returned, in order, and the final state of the strategy. -/
def callN {σ : Type} (getNext : σ → Except Failure (ServerRef × σ)) :
    Nat → σ → Except Failure (List ServerRef × σ)
  | 0, s => .ok ([], s)
  | n + 1, s =>
    match getNext s with
    | .error e => .error e
    | .ok (server, s1) =>
      match callN getNext n s1 with
      | .error e => .error e
      | .ok (rest, s2) => .ok (server :: rest, s2)

/-- The reference returned by call number `k` (counting from 0) in a run of
consecutive calls starting in state `s`. -/
def nthCall {σ : Type} (getNext : σ → Except Failure (ServerRef × σ))
    (k : Nat) (s : σ) : Except Failure ServerRef :=
  match callN getNext k s with
  | .error e => .error e
  | .ok (_, s1) =>
    match getNext s1 with
    | .error e => .error e
    | .ok (server, _) => .ok server

/-- What the loop `std::cout << ....getNextServer().ip << std::endl` prints in `n`
rounds: the `ip` fields of the servers returned by `n` consecutive calls. -/
def selectedIps {σ : Type} (getNext : σ → Except Failure (ServerRef × σ))
    (n : Nat) (s : σ) : Except Failure (List String) :=
  match callN getNext n s with
  | .error e => .error e
  | .ok (selected, _) => .ok (selected.map (fun r => r.server.ip))

/-- The positions returned by `n` consecutive calls. -/
def selectedPositions {σ : Type} (getNext : σ → Except Failure (ServerRef × σ))
    (n : Nat) (s : σ) : Except Failure (List Nat) :=
  match callN getNext n s with
  | .error e => .error e
  | .ok (selected, _) => .ok (selected.map ServerRef.position)

/-! ## The driver `main` (lines 104-148) -/

/-- The pool built by `main` (lines 105-109). -/
def mainServers : List Server :=
  [Server.new "192.168.1.1" 1, Server.new "192.168.1.2" 2, Server.new "192.168.1.3" 3]

/-- The local variables of `main`: its vector `servers` and the five strategy
objects.  Each strategy constructor takes the vector by value and stores a copy
in its own member, so the objects do not share storage with `servers`. -/
structure Main where
  servers : List Server
  rr : RoundRobin
  wrr : WeightedRoundRobin
  lc : LeastConnections
  lrt : LeastResponseTime
  iphash : IPHash
  deriving DecidableEq, Repr

/-- Lines 105-115 of `main`. -/
def Main.start : Main :=
  ⟨mainServers, RoundRobin.new mainServers, WeightedRoundRobin.new mainServers,
    LeastConnections.new mainServers, LeastResponseTime.new mainServers,
    IPHash.new mainServers⟩

/-- The write `v[i].connections = n` to a vector `v`. -/
def assignConnections : List Server → Nat → Int → List Server
  | [], _, _ => []
  | x :: xs, 0, n => ⟨x.ip, x.weight, n, x.responseTime⟩ :: xs
  | x :: xs, i + 1, n => x :: assignConnections xs i n

/-- The write `v[i].responseTime = std::chrono::milliseconds(n)` to a vector `v`. -/
def assignResponseTime : List Server → Nat → Int → List Server
  | [], _, _ => []
  | x :: xs, 0, n => ⟨x.ip, x.weight, x.connections, n⟩ :: xs
  | x :: xs, i + 1, n => x :: assignResponseTime xs i n

/-- The statement `servers[i].connections = n;` of `main`: it writes to the local
vector of `main`. -/
def Main.setConnections (m : Main) (i : Nat) (n : Int) : Main :=
  ⟨assignConnections m.servers i n, m.rr, m.wrr, m.lc, m.lrt, m.iphash⟩

/-- The statement `servers[i].responseTime = std::chrono::milliseconds(n);` of
`main`. -/
def Main.setResponseTime (m : Main) (i : Nat) (n : Int) : Main :=
  ⟨assignResponseTime m.servers i n, m.rr, m.wrr, m.lc, m.lrt, m.iphash⟩

/-- Lines 131-133 of `main`. -/
def Main.afterConnections : Main :=
  ((Main.start.setConnections 0 5).setConnections 1 2).setConnections 2 3

/-- Lines 137-139 of `main`, after lines 131-133. -/
def Main.afterResponseTimes : Main :=
  ((Main.afterConnections.setResponseTime 0 50).setResponseTime 1 30).setResponseTime 2 40

/-- Line 134 of `main`: the `ip` printed under "Least Connections:". -/
def Main.leastConnectionsLine : Except Failure String :=
  match Main.afterConnections.lc.getNextServer with
  | .error e => .error e
  | .ok (selected, _) => .ok selected.server.ip

/-- Line 140 of `main`: the `ip` printed under "Least Response Time:". -/
def Main.leastResponseTimeLine : Except Failure String :=
  match Main.afterResponseTimes.lrt.getNextServer with
  | .error e => .error e
  | .ok (selected, _) => .ok selected.server.ip

/-! ## Construction as the caller sees it -/

/-- The five kinds of strategy. -/
inductive Kind where
  | RoundRobin
  | WeightedRoundRobin
  | LeastConnections
  | LeastResponseTime
  | IPHash
  deriving DecidableEq, Repr

/-- A strategy object of one of the five classes. -/
inductive Strategy where
  | roundRobin (s : RoundRobin)
  | weightedRoundRobin (s : WeightedRoundRobin)
  | leastConnections (s : LeastConnections)
  | leastResponseTime (s : LeastResponseTime)
  | ipHash (s : IPHash)
  deriving DecidableEq, Repr

/-- The pool held by a strategy object. -/
def Strategy.servers : Strategy → List Server
  | .roundRobin s => s.servers
  | .weightedRoundRobin s => s.servers
  | .leastConnections s => s.servers
  | .leastResponseTime s => s.servers
  | .ipHash s => s.servers

/-- The outcome of the constructor call `K name(servers);` for each class `K`
(lines 25, 42, 68, 82, 96).  Each constructor consists of its member initialisers
only, with an empty body: there is no test of `servers` and no `throw`, so the
call completes with the object. -/
def construct : Kind → List Server → Except Failure Strategy
  | .RoundRobin, servers => .ok (.roundRobin (RoundRobin.new servers))
  | .WeightedRoundRobin, servers => .ok (.weightedRoundRobin (WeightedRoundRobin.new servers))
  | .LeastConnections, servers => .ok (.leastConnections (LeastConnections.new servers))
  | .LeastResponseTime, servers => .ok (.leastResponseTime (LeastResponseTime.new servers))
  | .IPHash, servers => .ok (.ipHash (IPHash.new servers))

/-! ## Quantities named by the specification of Weighted Round Robin -/

/-- The greatest common divisor of the weights of all servers in the pool, the
decrement the specification asks for at a wraparound ("the greatest common
divisor across all server weights in the pool").  The source does not compute
it: line 48 uses `std::gcd(servers[0].weight, servers[1].weight)`. -/
def gcdOfAllWeights (servers : List Server) : Nat :=
  servers.foldr (fun x g => Int.gcd x.weight (g : Int)) 0

/-- The sum of the weights of all servers in the pool, the length of "one full
weighted cycle" in the specification. -/
def totalWeight (servers : List Server) : Int :=
  (servers.map Server.weight).sum


/-- A pool of three servers with weights 2, 2 and 1. -/
def pool221 : List Server :=
  [Server.new "a" 2, Server.new "b" 2, Server.new "c" 1]


/-! ## Auxiliary quantities for the analysis of Weighted Round Robin -/

/-- The value of `std::max_element(...)->weight` (lines 50-51) on a non-empty
vector. -/
def maxWeight (servers : List Server) : Int :=
  match maxElement weightLess servers with
  | some (_, largest) => largest.weight
  | none => 0

/-- The value of `std::gcd(servers[0].weight, servers[1].weight)` (line 48) on a
vector of at least two servers. -/
def wrapDecrement : List Server → Int
  | first :: second :: _ => Int.gcd first.weight second.weight
  | _ => 0

/-- Lines 48-51: the value of `currentWeight` after a wraparound that starts with
`currentWeight = c`. -/
def nextWeight (servers : List Server) (c : Int) : Int :=
  if c - wrapDecrement servers ≤ 0 then maxWeight servers else c - wrapDecrement servers

/-- The references that pass the test `weight >= c` of line 55 among the servers
`xs`, which are stored at the positions `j, j + 1, ...`, in the order of the
cursor. -/
def acceptedAt (c : Int) : List Server → Nat → List ServerRef
  | [], _ => []
  | x :: xs, j =>
    if x.weight ≥ c then ⟨j, x⟩ :: acceptedAt c xs (j + 1) else acceptedAt c xs (j + 1)

/-- The references accepted in `t` consecutive sweeps of the cursor over the whole
pool, each sweep starting with a wraparound, the first from `currentWeight = c`. -/
def acceptedInPasses (servers : List Server) : Nat → Int → List ServerRef
  | 0, _ => []
  | t + 1, c =>
    acceptedAt (nextWeight servers c) servers 0
      ++ acceptedInPasses servers t (nextWeight servers c)

/-- The loop body run `n` times in a row, across consecutive calls of
`getNextServer`: a pass that returns ends one call, and the next pass is the first
of the next call.  The result lists the references returned, in order, with the
members after the last pass. -/
def WeightedRoundRobin.iterations :
    Nat → WeightedRoundRobin → Except Failure (List ServerRef × WeightedRoundRobin)
  | 0, s => .ok ([], s)
  | n + 1, s =>
    match s.iteration with
    | .error e => .error e
    | .ok (.returned server s1) =>
      match WeightedRoundRobin.iterations n s1 with
      | .error e => .error e
      | .ok (rest, s2) => .ok (server :: rest, s2)
    | .ok (.again s1) => WeightedRoundRobin.iterations n s1


/-! ## Theorems -/

/-! ### `std::min_element` and `std::max_element` with a comparator on a key -/

/-- Reading a position before the end of `pre` in `pre ++ [x]`. -/
theorem getElem?_append_singleton_cases {α : Type} (pre : List α) (x y : α) (j : Nat)
    (h : (pre ++ [x])[j]? = some y) : pre[j]? = some y ∨ (j = pre.length ∧ y = x) := by
  rcases Nat.lt_trichotomy j pre.length with hlt | heq | hgt
  · left
    rwa [List.getElem?_append_left hlt] at h
  · right
    subst heq
    simp at h
    exact ⟨rfl, h.symm⟩
  · exfalso
    have hlen : (pre ++ [x]).length ≤ j := by simp; omega
    rw [List.getElem?_eq_none hlen] at h
    exact Option.noConfusion h

/-- The loop of `std::min_element` keeps the first smallest element: if
`smallest` is the first minimum of the part `pre` already scanned, the result is
the first minimum of `pre ++ rest`. -/
theorem minElementFrom_firstMin {α : Type} (key : α → Int) (comp : α → α → Bool)
    (hcomp : ∀ a b, comp a b = decide (key a < key b)) (rest : List α) :
    ∀ (pre : List α) (si : Nat) (sm : α),
      pre[si]? = some sm →
      (∀ (j : Nat) (x : α), pre[j]? = some x → key sm ≤ key x) →
      (∀ (j : Nat) (x : α), j < si → pre[j]? = some x → key sm < key x) →
      (pre ++ rest)[(minElementFrom comp rest (si, sm) pre.length).1]?
          = some (minElementFrom comp rest (si, sm) pre.length).2 ∧
        (∀ (j : Nat) (x : α), (pre ++ rest)[j]? = some x →
          key (minElementFrom comp rest (si, sm) pre.length).2 ≤ key x) ∧
        (∀ (j : Nat) (x : α), j < (minElementFrom comp rest (si, sm) pre.length).1 →
          (pre ++ rest)[j]? = some x →
          key (minElementFrom comp rest (si, sm) pre.length).2 < key x) := by
  induction rest with
  | nil =>
    intro pre si sm h1 h2 h3
    simpa [minElementFrom] using ⟨h1, h2, h3⟩
  | cons x xs ih =>
    intro pre si sm h1 h2 h3
    have hsi : si < pre.length := by
      by_contra hcon
      rw [List.getElem?_eq_none (by omega)] at h1
      exact Option.noConfusion h1
    have happ : pre ++ x :: xs = (pre ++ [x]) ++ xs := by simp
    have hlen : (pre ++ [x]).length = pre.length + 1 := by simp
    by_cases hlt : key x < key sm
    · have hstep : minElementFrom comp (x :: xs) (si, sm) pre.length
          = minElementFrom comp xs (pre.length, x) (pre ++ [x]).length := by
        simp [minElementFrom, hcomp, hlt]
      rw [hstep, happ]
      apply ih (pre ++ [x]) pre.length x
      · simp
      · intro j y hy
        rcases getElem?_append_singleton_cases pre x y j hy with hpre | ⟨_, hyx⟩
        · have := h2 j y hpre
          omega
        · rw [hyx]
      · intro j y hj hy
        rw [List.getElem?_append_left hj] at hy
        have := h2 j y hy
        omega
    · have hstep : minElementFrom comp (x :: xs) (si, sm) pre.length
          = minElementFrom comp xs (si, sm) (pre ++ [x]).length := by
        simp [minElementFrom, hcomp, hlt]
      rw [hstep, happ]
      apply ih (pre ++ [x]) si sm
      · rw [List.getElem?_append_left hsi]
        exact h1
      · intro j y hy
        rcases getElem?_append_singleton_cases pre x y j hy with hpre | ⟨_, hyx⟩
        · exact h2 j y hpre
        · rw [hyx]
          omega
      · intro j y hj hy
        rw [List.getElem?_append_left (by omega)] at hy
        exact h3 j y hj hy

/-- On a non-empty range `std::min_element` returns the first smallest element. -/
theorem minElement_firstMin {α : Type} (key : α → Int) (comp : α → α → Bool)
    (hcomp : ∀ a b, comp a b = decide (key a < key b)) (xs : List α) (hne : xs ≠ []) :
    ∃ i m, minElement comp xs = some (i, m) ∧ xs[i]? = some m ∧
      (∀ (j : Nat) (x : α), xs[j]? = some x → key m ≤ key x) ∧
      (∀ (j : Nat) (x : α), j < i → xs[j]? = some x → key m < key x) := by
  cases xs with
  | nil => exact absurd rfl hne
  | cons a as =>
    have hspec := minElementFrom_firstMin key comp hcomp as [a] 0 a (by simp)
      (by
        intro j x hx
        cases j with
        | zero => simp at hx; rw [hx]
        | succ j => simp at hx)
      (by intro j x hj; omega)
    refine ⟨(minElementFrom comp as (0, a) 1).1, (minElementFrom comp as (0, a) 1).2, ?_, ?_⟩
    · simp [minElement]
    · simpa using hspec

/-- The loop of `std::max_element` keeps the first largest element. -/
theorem maxElementFrom_firstMax {α : Type} (key : α → Int) (comp : α → α → Bool)
    (hcomp : ∀ a b, comp a b = decide (key a < key b)) (rest : List α) :
    ∀ (pre : List α) (li : Nat) (lg : α),
      pre[li]? = some lg →
      (∀ (j : Nat) (x : α), pre[j]? = some x → key x ≤ key lg) →
      (∀ (j : Nat) (x : α), j < li → pre[j]? = some x → key x < key lg) →
      (pre ++ rest)[(maxElementFrom comp rest (li, lg) pre.length).1]?
          = some (maxElementFrom comp rest (li, lg) pre.length).2 ∧
        (∀ (j : Nat) (x : α), (pre ++ rest)[j]? = some x →
          key x ≤ key (maxElementFrom comp rest (li, lg) pre.length).2) ∧
        (∀ (j : Nat) (x : α), j < (maxElementFrom comp rest (li, lg) pre.length).1 →
          (pre ++ rest)[j]? = some x →
          key x < key (maxElementFrom comp rest (li, lg) pre.length).2) := by
  induction rest with
  | nil =>
    intro pre li lg h1 h2 h3
    simpa [maxElementFrom] using ⟨h1, h2, h3⟩
  | cons x xs ih =>
    intro pre li lg h1 h2 h3
    have hli : li < pre.length := by
      by_contra hcon
      rw [List.getElem?_eq_none (by omega)] at h1
      exact Option.noConfusion h1
    have happ : pre ++ x :: xs = (pre ++ [x]) ++ xs := by simp
    have hlen : (pre ++ [x]).length = pre.length + 1 := by simp
    by_cases hlt : key lg < key x
    · have hstep : maxElementFrom comp (x :: xs) (li, lg) pre.length
          = maxElementFrom comp xs (pre.length, x) (pre ++ [x]).length := by
        simp [maxElementFrom, hcomp, hlt]
      rw [hstep, happ]
      apply ih (pre ++ [x]) pre.length x
      · simp
      · intro j y hy
        rcases getElem?_append_singleton_cases pre x y j hy with hpre | ⟨_, hyx⟩
        · have := h2 j y hpre
          omega
        · rw [hyx]
      · intro j y hj hy
        rw [List.getElem?_append_left hj] at hy
        have := h2 j y hy
        omega
    · have hstep : maxElementFrom comp (x :: xs) (li, lg) pre.length
          = maxElementFrom comp xs (li, lg) (pre ++ [x]).length := by
        simp [maxElementFrom, hcomp, hlt]
      rw [hstep, happ]
      apply ih (pre ++ [x]) li lg
      · rw [List.getElem?_append_left hli]
        exact h1
      · intro j y hy
        rcases getElem?_append_singleton_cases pre x y j hy with hpre | ⟨_, hyx⟩
        · exact h2 j y hpre
        · rw [hyx]
          omega
      · intro j y hj hy
        rw [List.getElem?_append_left (by omega)] at hy
        exact h3 j y hj hy

/-- On a non-empty range `std::max_element` returns the first largest element. -/
theorem maxElement_firstMax {α : Type} (key : α → Int) (comp : α → α → Bool)
    (hcomp : ∀ a b, comp a b = decide (key a < key b)) (xs : List α) (hne : xs ≠ []) :
    ∃ i m, maxElement comp xs = some (i, m) ∧ xs[i]? = some m ∧
      (∀ (j : Nat) (x : α), xs[j]? = some x → key x ≤ key m) ∧
      (∀ (j : Nat) (x : α), j < i → xs[j]? = some x → key x < key m) := by
  cases xs with
  | nil => exact absurd rfl hne
  | cons a as =>
    have hspec := maxElementFrom_firstMax key comp hcomp as [a] 0 a (by simp)
      (by
        intro j x hx
        cases j with
        | zero => simp at hx; rw [hx]
        | succ j => simp at hx)
      (by intro j x hj; omega)
    refine ⟨(maxElementFrom comp as (0, a) 1).1, (maxElementFrom comp as (0, a) 1).2, ?_, ?_⟩
    · simp [maxElement]
    · simpa using hspec

/-! ### Round Robin -/

/-- One call of `RoundRobin::getNextServer` with the cursor inside the pool. -/
theorem RoundRobin.getNextServer_inRange (servers : List Server) (i : Nat)
    (h : i < servers.length) :
    RoundRobin.getNextServer ⟨servers, i⟩
      = .ok (⟨i, servers[i]⟩, ⟨servers, (i + 1) % servers.length⟩) := by
  have hne : servers.length ≠ 0 := by omega
  simp [RoundRobin.getNextServer, index, List.getElem?_eq_getElem h, hne]

/-- After `k` calls the cursor of a `RoundRobin` has advanced by `k`, cyclically. -/
theorem RoundRobin.callN_cursor (servers : List Server) (k : Nat) :
    ∀ i, i < servers.length →
      ∃ sel, callN RoundRobin.getNextServer k ⟨servers, i⟩
        = .ok (sel, ⟨servers, (i + k) % servers.length⟩) := by
  induction k with
  | zero =>
    intro i hi
    exact ⟨[], by simp [callN, Nat.mod_eq_of_lt hi]⟩
  | succ k ih =>
    intro i hi
    have hpos : 0 < servers.length := by omega
    obtain ⟨sel, hsel⟩ := ih ((i + 1) % servers.length) (Nat.mod_lt _ hpos)
    refine ⟨⟨i, servers[i]⟩ :: sel, ?_⟩
    have hmod : ((i + 1) % servers.length + k) % servers.length
        = (i + (k + 1)) % servers.length := by
      rw [Nat.add_mod, Nat.mod_mod, ← Nat.add_mod]
      congr 1
      omega
    simp [callN, RoundRobin.getNextServer_inRange servers i hi, hsel, hmod]

/-- Claim C1.  On a freshly constructed `RoundRobin` over a non-empty pool of size
`N`, call number `k` (counting from 0) of `getNextServer` returns the server at
position `k mod N`; and the six calls of `main` on its three-server pool print the
addresses of the first, second, third, first, second and third server. -/
theorem RoundRobin_kth_call_returns_k_mod_N :
    (∀ (servers : List Server), servers ≠ [] → ∀ k : Nat,
      ∃ server, servers[k % servers.length]? = some server ∧
        nthCall RoundRobin.getNextServer k (RoundRobin.new servers)
          = .ok ⟨k % servers.length, server⟩) ∧
    selectedIps RoundRobin.getNextServer 6 (RoundRobin.new mainServers)
      = .ok ["192.168.1.1", "192.168.1.2", "192.168.1.3",
             "192.168.1.1", "192.168.1.2", "192.168.1.3"] := by
  refine ⟨?_, rfl⟩
  intro servers hne k
  have hpos : 0 < servers.length := List.length_pos.mpr hne
  have hlt : k % servers.length < servers.length := Nat.mod_lt _ hpos
  obtain ⟨sel, hsel⟩ := RoundRobin.callN_cursor servers k 0 hpos
  refine ⟨servers[k % servers.length], List.getElem?_eq_getElem hlt, ?_⟩
  rw [Nat.zero_add] at hsel
  simp [nthCall, RoundRobin.new, hsel, RoundRobin.getNextServer_inRange servers _ hlt]

/-- Claim C1 at the pool of `main`, call number 4. -/
theorem RoundRobin_kth_call_returns_k_mod_N_witness :
    mainServers ≠ [] ∧
    ∃ server, mainServers[4 % mainServers.length]? = some server ∧
      nthCall RoundRobin.getNextServer 4 (RoundRobin.new mainServers)
        = .ok ⟨4 % mainServers.length, server⟩ :=
  ⟨by simp [mainServers],
    RoundRobin_kth_call_returns_k_mod_N.1 mainServers (by simp [mainServers]) 4⟩

/-! ### Least Connections and Least Response Time -/

/-- Claim C3.  For every non-empty pool held by a `LeastConnections` and every
assignment of connection counts, `getNextServer` returns a server of the pool
whose `connections` is the minimum over the pool, and every server at a lower
position has strictly more connections: among the servers tied at the minimum the
one at the lowest position is returned.  The state is left as it was. -/
theorem LeastConnections_returns_first_minimum (servers : List Server)
    (hne : servers ≠ []) :
    ∃ i server,
      LeastConnections.getNextServer ⟨servers⟩ = .ok (⟨i, server⟩, ⟨servers⟩) ∧
      servers[i]? = some server ∧
      (∀ (j : Nat) (x : Server), servers[j]? = some x →
        server.connections ≤ x.connections) ∧
      (∀ (j : Nat) (x : Server), j < i → servers[j]? = some x →
        server.connections < x.connections) := by
  obtain ⟨i, m, hmin, hget, hle, hfirst⟩ :=
    minElement_firstMin Server.connections connectionsLess (fun _ _ => rfl) servers hne
  exact ⟨i, m, by simp [LeastConnections.getNextServer, hmin], hget, hle, hfirst⟩

/-- Claim C3 at a four-server pool with connection counts 4, 2, 7, 2: the server
at position 1 is returned. -/
theorem LeastConnections_returns_first_minimum_witness :
    ([⟨"a", 1, 4, 0⟩, ⟨"b", 1, 2, 0⟩, ⟨"c", 1, 7, 0⟩, ⟨"d", 1, 2, 0⟩] : List Server) ≠ [] ∧
    (LeastConnections.getNextServer ⟨[⟨"a", 1, 4, 0⟩, ⟨"b", 1, 2, 0⟩, ⟨"c", 1, 7, 0⟩,
        ⟨"d", 1, 2, 0⟩]⟩).map (fun r => r.1.position) = .ok 1 ∧
    ∃ i server,
      LeastConnections.getNextServer
          ⟨[⟨"a", 1, 4, 0⟩, ⟨"b", 1, 2, 0⟩, ⟨"c", 1, 7, 0⟩, ⟨"d", 1, 2, 0⟩]⟩
        = .ok (⟨i, server⟩,
            ⟨[⟨"a", 1, 4, 0⟩, ⟨"b", 1, 2, 0⟩, ⟨"c", 1, 7, 0⟩, ⟨"d", 1, 2, 0⟩]⟩) ∧
      ([⟨"a", 1, 4, 0⟩, ⟨"b", 1, 2, 0⟩, ⟨"c", 1, 7, 0⟩, ⟨"d", 1, 2, 0⟩] : List Server)[i]?
        = some server ∧
      (∀ (j : Nat) (x : Server),
        ([⟨"a", 1, 4, 0⟩, ⟨"b", 1, 2, 0⟩, ⟨"c", 1, 7, 0⟩, ⟨"d", 1, 2, 0⟩] : List Server)[j]?
          = some x → server.connections ≤ x.connections) ∧
      (∀ (j : Nat) (x : Server), j < i →
        ([⟨"a", 1, 4, 0⟩, ⟨"b", 1, 2, 0⟩, ⟨"c", 1, 7, 0⟩, ⟨"d", 1, 2, 0⟩] : List Server)[j]?
          = some x → server.connections < x.connections) :=
  ⟨by simp, rfl, LeastConnections_returns_first_minimum _ (by simp)⟩

/-- Claim C4.  For every non-empty pool held by a `LeastResponseTime` and every
assignment of response times, `getNextServer` returns a server of the pool whose
`responseTime` is the minimum over the pool, and every server at a lower position
has a strictly larger response time: among the servers tied at the minimum the
one at the lowest position is returned.  The state is left as it was. -/
theorem LeastResponseTime_returns_first_minimum (servers : List Server)
    (hne : servers ≠ []) :
    ∃ i server,
      LeastResponseTime.getNextServer ⟨servers⟩ = .ok (⟨i, server⟩, ⟨servers⟩) ∧
      servers[i]? = some server ∧
      (∀ (j : Nat) (x : Server), servers[j]? = some x →
        server.responseTime ≤ x.responseTime) ∧
      (∀ (j : Nat) (x : Server), j < i → servers[j]? = some x →
        server.responseTime < x.responseTime) := by
  obtain ⟨i, m, hmin, hget, hle, hfirst⟩ :=
    minElement_firstMin Server.responseTime responseTimeLess (fun _ _ => rfl) servers hne
  exact ⟨i, m, by simp [LeastResponseTime.getNextServer, hmin], hget, hle, hfirst⟩

/-- Claim C4 at a three-server pool with response times 30, 20, 20: the server at
position 1 is returned. -/
theorem LeastResponseTime_returns_first_minimum_witness :
    ([⟨"a", 1, 0, 30⟩, ⟨"b", 1, 0, 20⟩, ⟨"c", 1, 0, 20⟩] : List Server) ≠ [] ∧
    (LeastResponseTime.getNextServer
        ⟨[⟨"a", 1, 0, 30⟩, ⟨"b", 1, 0, 20⟩, ⟨"c", 1, 0, 20⟩]⟩).map
      (fun r => r.1.position) = .ok 1 ∧
    ∃ i server,
      LeastResponseTime.getNextServer ⟨[⟨"a", 1, 0, 30⟩, ⟨"b", 1, 0, 20⟩, ⟨"c", 1, 0, 20⟩]⟩
        = .ok (⟨i, server⟩, ⟨[⟨"a", 1, 0, 30⟩, ⟨"b", 1, 0, 20⟩, ⟨"c", 1, 0, 20⟩]⟩) ∧
      ([⟨"a", 1, 0, 30⟩, ⟨"b", 1, 0, 20⟩, ⟨"c", 1, 0, 20⟩] : List Server)[i]? = some server ∧
      (∀ (j : Nat) (x : Server),
        ([⟨"a", 1, 0, 30⟩, ⟨"b", 1, 0, 20⟩, ⟨"c", 1, 0, 20⟩] : List Server)[j]? = some x →
          server.responseTime ≤ x.responseTime) ∧
      (∀ (j : Nat) (x : Server), j < i →
        ([⟨"a", 1, 0, 30⟩, ⟨"b", 1, 0, 20⟩, ⟨"c", 1, 0, 20⟩] : List Server)[j]? = some x →
          server.responseTime < x.responseTime) :=
  ⟨by simp, rfl, LeastResponseTime_returns_first_minimum _ (by simp)⟩

/-- Claim C5, evaluated on the code.  In `main` the metric writes of lines 131-133
and 137-139 go to the local vector of `main`, which then holds connections 5, 2, 3
and response times 50, 30, 40, while the strategy objects keep the copies made at
construction, in which every metric is 0.  Both selections therefore print the
address of the first server, "192.168.1.1", not that of the second.  A strategy
constructed over the updated vector would select the second server. -/
theorem main_metric_updates_not_seen_by_strategies :
    Main.afterResponseTimes.servers.map Server.connections = [5, 2, 3] ∧
    Main.afterResponseTimes.servers.map Server.responseTime = [50, 30, 40] ∧
    Main.afterResponseTimes.lc.servers.map Server.connections = [0, 0, 0] ∧
    Main.afterResponseTimes.lrt.servers.map Server.responseTime = [0, 0, 0] ∧
    Main.leastConnectionsLine = .ok "192.168.1.1" ∧
    Main.leastResponseTimeLine = .ok "192.168.1.1" ∧
    (LeastConnections.getNextServer
        (LeastConnections.new Main.afterConnections.servers)).map
      (fun r => r.1.server.ip) = .ok "192.168.1.2" ∧
    (LeastResponseTime.getNextServer
        (LeastResponseTime.new Main.afterResponseTimes.servers)).map
      (fun r => r.1.server.ip) = .ok "192.168.1.2" :=
  ⟨rfl, rfl, rfl, rfl, rfl, rfl, rfl, rfl⟩

/-! ### IP Hash -/

/-- One call of `IPHash::getNextServer` on a non-empty pool. -/
theorem IPHash.getNextServer_nonempty (hash : String → Nat) (servers : List Server)
    (hne : servers ≠ []) (key : String) :
    ∃ h : hash key % servers.length < servers.length,
      IPHash.getNextServer hash ⟨servers⟩ key
        = .ok (⟨hash key % servers.length, servers[hash key % servers.length]⟩,
            ⟨servers⟩) := by
  have hpos : 0 < servers.length := List.length_pos.mpr hne
  have hlt : hash key % servers.length < servers.length := Nat.mod_lt _ hpos
  have hn0 : servers.length ≠ 0 := by omega
  exact ⟨hlt, by simp [IPHash.getNextServer, index, List.getElem?_eq_getElem hlt, hn0]⟩

/-- A sequence of `IPHash` calls, each of which returns `f key` and leaves the
state as it was, returns the image of the keys under `f` and leaves the state as
it was. -/
theorem IPHash.callEach_map (hash : String → Nat) (s : IPHash) (f : String → ServerRef)
    (hf : ∀ key, IPHash.getNextServer hash s key = .ok (f key, s)) (keys : List String) :
    IPHash.callEach hash keys s = .ok (keys.map f, s) := by
  induction keys with
  | nil => rfl
  | cons key keys ih => simp [IPHash.callEach, hf key, ih]

/-- Claim C6.  For every non-empty pool of size `N`, every hash function and every
client key, `IPHash::getNextServer(key)` returns the server at position
`hash(key) mod N`, and that position lies within the pool. -/
theorem IPHash_returns_server_at_hash_mod_N (hash : String → Nat)
    (servers : List Server) (hne : servers ≠ []) (key : String) :
    hash key % servers.length < servers.length ∧
    ∃ server, servers[hash key % servers.length]? = some server ∧
      IPHash.getNextServer hash (IPHash.new servers) key
        = .ok (⟨hash key % servers.length, server⟩, IPHash.new servers) := by
  obtain ⟨hlt, hcall⟩ := IPHash.getNextServer_nonempty hash servers hne key
  exact ⟨hlt, servers[hash key % servers.length], List.getElem?_eq_getElem hlt, hcall⟩

/-- Claim C6 at the pool of `main`, with the length of the key as hash function
and the key "10.0.0.1": position `8 mod 3 = 2`. -/
theorem IPHash_returns_server_at_hash_mod_N_witness :
    mainServers ≠ [] ∧
    (IPHash.getNextServer String.length (IPHash.new mainServers) "10.0.0.1").map
      (fun r => r.1.position) = .ok 2 ∧
    String.length "10.0.0.1" % mainServers.length < mainServers.length ∧
    ∃ server, mainServers[String.length "10.0.0.1" % mainServers.length]? = some server ∧
      IPHash.getNextServer String.length (IPHash.new mainServers) "10.0.0.1"
        = .ok (⟨String.length "10.0.0.1" % mainServers.length, server⟩,
            IPHash.new mainServers) :=
  ⟨by simp [mainServers], rfl,
    IPHash_returns_server_at_hash_mod_N String.length mainServers
      (by simp [mainServers]) "10.0.0.1"⟩

/-- Claim C7.  For every non-empty pool and every key, a call of
`IPHash::getNextServer(key)` returns a server and leaves the state of the strategy
as it was; hence in any sequence of calls on one instance that starts and ends
with the same key, with arbitrary keys in between, the first and the last call
return the same server. -/
theorem IPHash_same_key_same_server (hash : String → Nat) (servers : List Server)
    (hne : servers ≠ []) (key : String) :
    ∃ r, IPHash.getNextServer hash (IPHash.new servers) key = .ok (r, IPHash.new servers) ∧
      ∀ between : List String, ∃ sel,
        IPHash.callEach hash (key :: (between ++ [key])) (IPHash.new servers)
          = .ok (r :: (sel ++ [r]), IPHash.new servers) ∧
        sel.length = between.length := by
  have hpos : 0 < servers.length := List.length_pos.mpr hne
  have hf : ∀ k, IPHash.getNextServer hash (IPHash.new servers) k
      = .ok ((⟨hash k % servers.length,
          servers.get ⟨hash k % servers.length, Nat.mod_lt _ hpos⟩⟩ : ServerRef),
        IPHash.new servers) := by
    intro k
    obtain ⟨_, hcall⟩ := IPHash.getNextServer_nonempty hash servers hne k
    simpa [IPHash.new] using hcall
  refine ⟨_, hf key, ?_⟩
  intro between
  refine ⟨between.map (fun k => (⟨hash k % servers.length,
      servers.get ⟨hash k % servers.length, Nat.mod_lt _ hpos⟩⟩ : ServerRef)), ?_, by simp⟩
  rw [IPHash.callEach_map hash (IPHash.new servers) _ hf]
  simp

/-- Claim C7 at the pool of `main`, with the length of the key as hash function:
the key "10.0.0.1" before and after calls with the other two keys of `main`. -/
theorem IPHash_same_key_same_server_witness :
    mainServers ≠ [] ∧
    (IPHash.callEach String.length ["10.0.0.1", "10.0.0.22", "10.0.0.333", "10.0.0.1"]
        (IPHash.new mainServers)).map (fun r => r.1.map ServerRef.position)
      = .ok [2, 0, 1, 2] ∧
    ∃ r, IPHash.getNextServer String.length (IPHash.new mainServers) "10.0.0.1"
        = .ok (r, IPHash.new mainServers) ∧
      ∀ between : List String, ∃ sel,
        IPHash.callEach String.length ("10.0.0.1" :: (between ++ ["10.0.0.1"]))
            (IPHash.new mainServers)
          = .ok (r :: (sel ++ [r]), IPHash.new mainServers) ∧
        sel.length = between.length :=
  ⟨by simp [mainServers], rfl,
    IPHash_same_key_same_server String.length mainServers (by simp [mainServers]) "10.0.0.1"⟩

/-! ### Weighted Round Robin -/

/-- More fuel does not change a result of `WeightedRoundRobin::getNextServer`. -/
theorem WeightedRoundRobin.getNextServer_fuel_mono (fuel extra : Nat) :
    ∀ (s : WeightedRoundRobin) (r : ServerRef × WeightedRoundRobin),
      WeightedRoundRobin.getNextServer fuel s = .ok r →
      WeightedRoundRobin.getNextServer (fuel + extra) s = .ok r := by
  induction fuel with
  | zero =>
    intro s r h
    simp [WeightedRoundRobin.getNextServer] at h
  | succ fuel ih =>
    intro s r h
    rw [Nat.add_right_comm]
    simp only [WeightedRoundRobin.getNextServer] at h ⊢
    cases hit : s.iteration with
    | error e => simp [hit] at h
    | ok step =>
      cases step with
      | returned server s1 => simpa [hit] using h
      | again s1 =>
        simp only [hit] at h ⊢
        exact ih s1 r h

/-- More fuel in every call does not change the result of a run of calls. -/
theorem WeightedRoundRobin.callN_fuel_mono (fuel extra : Nat) (n : Nat) :
    ∀ (s : WeightedRoundRobin) (r : List ServerRef × WeightedRoundRobin),
      callN (WeightedRoundRobin.getNextServer fuel) n s = .ok r →
      callN (WeightedRoundRobin.getNextServer (fuel + extra)) n s = .ok r := by
  induction n with
  | zero =>
    intro s r h
    simpa [callN] using h
  | succ n ih =>
    intro s r h
    simp only [callN] at h ⊢
    cases hcall : WeightedRoundRobin.getNextServer fuel s with
    | error e => simp [hcall] at h
    | ok first =>
      obtain ⟨server, s1⟩ := first
      rw [WeightedRoundRobin.getNextServer_fuel_mono fuel extra s _ hcall]
      simp only [hcall] at h ⊢
      cases hrest : callN (WeightedRoundRobin.getNextServer fuel) n s1 with
      | error e => simp [hrest] at h
      | ok rest =>
        rw [ih s1 rest hrest]
        simpa [hrest] using h

/-- Claim C2, evaluated on the code at the pool with weights 2, 2, 3 (sum 7).  With
any bound of at least six iterations per call, the first seven selections of a
fresh `WeightedRoundRobin` are the positions 1, 2, 2, 0, 1, 2, 2: the server at
position 0, of weight 2, is returned once, and the server at position 2, of
weight 3, four times. -/
theorem WeightedRoundRobin_cycle_counts_weights_2_2_3 :
    ∀ extra : Nat,
      selectedPositions (WeightedRoundRobin.getNextServer (6 + extra)) 7
          (WeightedRoundRobin.new [Server.new "a" 2, Server.new "b" 2, Server.new "c" 3])
        = .ok [1, 2, 2, 0, 1, 2, 2] ∧
      List.count 0 [1, 2, 2, 0, 1, 2, 2] = 1 ∧
      List.count 1 [1, 2, 2, 0, 1, 2, 2] = 2 ∧
      List.count 2 [1, 2, 2, 0, 1, 2, 2] = 4 := by
  intro extra
  refine ⟨?_, by decide, by decide, by decide⟩
  have h : ∃ r, callN (WeightedRoundRobin.getNextServer 6) 7
      (WeightedRoundRobin.new [Server.new "a" 2, Server.new "b" 2, Server.new "c" 3])
        = .ok r ∧ r.1.map ServerRef.position = [1, 2, 2, 0, 1, 2, 2] := ⟨_, rfl, rfl⟩
  obtain ⟨r, hr, hpos⟩ := h
  simp only [selectedPositions, WeightedRoundRobin.callN_fuel_mono 6 extra 7 _ r hr, hpos]

/-- On a pool of at least two servers whose weights are all 0, with
`currentWeight = 0`, one pass through the loop body advances the cursor by one
position and returns the server there, leaving `currentWeight` at 0. -/
theorem WeightedRoundRobin.iteration_zero_weights (servers : List Server)
    (h2 : 2 ≤ servers.length) (hz : ∀ x ∈ servers, x.weight = 0)
    (i : Nat) :
    ∃ server, servers[(i + 1) % servers.length]? = some server ∧
      WeightedRoundRobin.iteration ⟨servers, i, 0⟩
        = .ok (.returned ⟨(i + 1) % servers.length, server⟩
            ⟨servers, (i + 1) % servers.length, 0⟩) := by
  have hn0 : servers.length ≠ 0 := by omega
  have hlt : (i + 1) % servers.length < servers.length := Nat.mod_lt _ (by omega)
  have hw : ∀ (j : Nat) (hj : j < servers.length), servers[j].weight = 0 :=
    fun j hj => hz _ (List.getElem_mem hj)
  refine ⟨servers[(i + 1) % servers.length], List.getElem?_eq_getElem hlt, ?_⟩
  by_cases hwrap : (i + 1) % servers.length = 0
  · have hne : servers ≠ [] := by
      intro hnil
      simp [hnil] at h2
    obtain ⟨p, lg, hmax, hget, _, _⟩ :=
      maxElement_firstMax Server.weight weightLess (fun _ _ => rfl) servers hne
    have hlg : lg.weight = 0 := hz lg (List.getElem?_mem hget)
    have h0 : (0 : Nat) < servers.length := by omega
    have h1 : (1 : Nat) < servers.length := by omega
    simp [WeightedRoundRobin.iteration, hn0, hwrap, index, List.getElem?_eq_getElem h0,
      List.getElem?_eq_getElem h1, hw 0 h0, hw 1 h1, hmax, hlg]
  · simp [WeightedRoundRobin.iteration, WeightedRoundRobin.accept, hn0, hwrap, index,
      List.getElem?_eq_getElem hlt, hw _ hlt]

/-- On a pool of at least two servers whose weights are all 0, a call of
`getNextServer` with `currentWeight = 0` returns in its first pass. -/
theorem WeightedRoundRobin.getNextServer_zero_weights (servers : List Server)
    (h2 : 2 ≤ servers.length) (hz : ∀ x ∈ servers, x.weight = 0)
    (fuel i : Nat) :
    ∃ server, servers[(i + 1) % servers.length]? = some server ∧
      WeightedRoundRobin.getNextServer (fuel + 1) ⟨servers, i, 0⟩
        = .ok (⟨(i + 1) % servers.length, server⟩,
            ⟨servers, (i + 1) % servers.length, 0⟩) := by
  obtain ⟨server, hget, hit⟩ := WeightedRoundRobin.iteration_zero_weights servers h2 hz i
  exact ⟨server, hget, by simp [WeightedRoundRobin.getNextServer, hit]⟩

/-- On a pool of at least two servers whose weights are all 0, `k` calls move the
cursor by `k` positions, cyclically, and leave `currentWeight` at 0. -/
theorem WeightedRoundRobin.callN_zero_weights (servers : List Server)
    (h2 : 2 ≤ servers.length) (hz : ∀ x ∈ servers, x.weight = 0)
    (fuel k : Nat) :
    ∀ i, ∃ sel, callN (WeightedRoundRobin.getNextServer (fuel + 1)) k ⟨servers, i, 0⟩
      = .ok (sel, ⟨servers, if k = 0 then i else (i + k) % servers.length, 0⟩) := by
  induction k with
  | zero =>
    intro i
    exact ⟨[], by simp [callN]⟩
  | succ k ih =>
    intro i
    obtain ⟨server, _, hcall⟩ :=
      WeightedRoundRobin.getNextServer_zero_weights servers h2 hz fuel i
    obtain ⟨sel, hsel⟩ := ih ((i + 1) % servers.length)
    refine ⟨⟨(i + 1) % servers.length, server⟩ :: sel, ?_⟩
    have hmod : ((i + 1) % servers.length + k) % servers.length
        = (i + (k + 1)) % servers.length := by
      rw [Nat.add_mod, Nat.mod_mod, ← Nat.add_mod]
      congr 1
      omega
    have hst : (if k = 0 then (i + 1) % servers.length
        else ((i + 1) % servers.length + k) % servers.length)
        = (i + (k + 1)) % servers.length := by
      by_cases hk : k = 0
      · simp [hk]
      · simp [hk, hmod]
    rw [hst] at hsel
    simp [callN, hcall, hsel]

/-- Claim C8 as stated fails on the code: on the fresh two-server pool with
weights 0 and 0 the first call of `getNextServer` returns the server at position
1, and three consecutive calls return positions 1, 0, 1. -/
theorem WeightedRoundRobin_zero_weights_not_always_first :
    nthCall (WeightedRoundRobin.getNextServer 4) 0
        (WeightedRoundRobin.new [Server.new "a" 0, Server.new "b" 0])
      = .ok ⟨1, Server.new "b" 0⟩ ∧
    selectedPositions (WeightedRoundRobin.getNextServer 4) 3
        (WeightedRoundRobin.new [Server.new "a" 0, Server.new "b" 0])
      = .ok [1, 0, 1] :=
  ⟨rfl, rfl⟩

/-- Claim C8, amended.  For every pool of `N ≥ 2` servers whose weights are all 0,
call number `k` (counting from 0) of `getNextServer` on a freshly constructed
`WeightedRoundRobin` returns, in its first pass through the loop, the server at
position `(k + 1) mod N`; so it returns the server at position 0 exactly when
`k + 1` is a multiple of `N`, that is, when the cursor wraps. -/
theorem WeightedRoundRobin_zero_weights_cyclic (servers : List Server)
    (h2 : 2 ≤ servers.length) (hz : ∀ x ∈ servers, x.weight = 0)
    (fuel k : Nat) :
    ∃ r, nthCall (WeightedRoundRobin.getNextServer (fuel + 1)) k
          (WeightedRoundRobin.new servers) = .ok r ∧
      r.position = (k + 1) % servers.length ∧
      servers[(k + 1) % servers.length]? = some r.server ∧
      (r.position = 0 ↔ servers.length ∣ k + 1) := by
  obtain ⟨sel, hsel⟩ := WeightedRoundRobin.callN_zero_weights servers h2 hz fuel k 0
  have hstate : (if k = 0 then 0 else (0 + k) % servers.length) = k % servers.length := by
    by_cases hk : k = 0
    · simp [hk]
    · simp [hk]
  rw [hstate] at hsel
  obtain ⟨server, hget, hcall⟩ :=
    WeightedRoundRobin.getNextServer_zero_weights servers h2 hz fuel (k % servers.length)
  have hmod : (k % servers.length + 1) % servers.length = (k + 1) % servers.length := by
    rw [Nat.add_mod, Nat.mod_mod, ← Nat.add_mod]
  rw [hmod] at hget hcall
  refine ⟨⟨(k + 1) % servers.length, server⟩, ?_, rfl, hget, ?_⟩
  · simp [nthCall, WeightedRoundRobin.new, hsel, hcall]
  · simp [Nat.dvd_iff_mod_eq_zero]

/-- Claim C8, amended, at the pool of three servers of weight 0, call number 4:
position `5 mod 3 = 2`. -/
theorem WeightedRoundRobin_zero_weights_cyclic_witness :
    2 ≤ [Server.new "a" 0, Server.new "b" 0, Server.new "c" 0].length ∧
    (∀ x ∈ [Server.new "a" 0, Server.new "b" 0, Server.new "c" 0], x.weight = 0) ∧
    ∃ r, nthCall (WeightedRoundRobin.getNextServer (0 + 1)) 4
          (WeightedRoundRobin.new [Server.new "a" 0, Server.new "b" 0, Server.new "c" 0])
        = .ok r ∧
      r.position = (4 + 1) % [Server.new "a" 0, Server.new "b" 0, Server.new "c" 0].length ∧
      [Server.new "a" 0, Server.new "b" 0, Server.new "c" 0][(4 + 1) %
        [Server.new "a" 0, Server.new "b" 0, Server.new "c" 0].length]? = some r.server ∧
      (r.position = 0 ↔
        [Server.new "a" 0, Server.new "b" 0, Server.new "c" 0].length ∣ 4 + 1) :=
  ⟨by decide, by simp [Server.new],
    WeightedRoundRobin_zero_weights_cyclic _ (by decide) (by simp [Server.new]) 0 4⟩

/-- Claim C9, evaluated on the code.  On a pool of exactly one server the first
pass through the loop of `getNextServer` wraps the cursor to 0 and evaluates
`servers[1].weight` for the `std::gcd` call, a read outside the vector; no server
is returned, whatever the server and the iteration bound. -/
theorem WeightedRoundRobin_single_server_reads_out_of_range :
    ∀ (server : Server) (fuel : Nat),
      WeightedRoundRobin.getNextServer (fuel + 1) (WeightedRoundRobin.new [server])
        = .error .outOfRange := by
  intro server fuel
  simp [WeightedRoundRobin.getNextServer, WeightedRoundRobin.iteration,
    WeightedRoundRobin.new, index]

/-! ### Construction -/

/-- Claim C10 as stated fails on the code: each of the five constructors, given
the empty pool, completes with a strategy object holding the empty pool; none
fails with `InvalidPool`. -/
theorem construct_empty_pool_succeeds :
    (construct .RoundRobin [] = .ok (.roundRobin ⟨[], 0⟩) ∧
      construct .WeightedRoundRobin [] = .ok (.weightedRoundRobin ⟨[], 0, 0⟩) ∧
      construct .LeastConnections [] = .ok (.leastConnections ⟨[]⟩) ∧
      construct .LeastResponseTime [] = .ok (.leastResponseTime ⟨[]⟩) ∧
      construct .IPHash [] = .ok (.ipHash ⟨[]⟩)) ∧
    (construct .RoundRobin [] ≠ .error .InvalidPool ∧
      construct .WeightedRoundRobin [] ≠ .error .InvalidPool ∧
      construct .LeastConnections [] ≠ .error .InvalidPool ∧
      construct .LeastResponseTime [] ≠ .error .InvalidPool ∧
      construct .IPHash [] ≠ .error .InvalidPool) := by
  refine ⟨⟨rfl, rfl, rfl, rfl, rfl⟩, ?_, ?_, ?_, ?_, ?_⟩ <;> simp [construct]

/-- Claim C10, amended.  Constructing any of the five strategies never fails: for
every pool, the empty one included, the constructor completes with a strategy
object that holds that pool. -/
theorem construct_always_succeeds :
    ∀ (kind : Kind) (servers : List Server),
      ∃ s, construct kind servers = .ok s ∧ s.servers = servers := by
  intro kind servers
  cases kind <;> exact ⟨_, rfl, rfl⟩

/-! ### Round Robin: periodicity -/

/-- The references returned by `k` calls of a `RoundRobin` whose cursor is at `i`:
the positions `i, i + 1, ...` taken cyclically, each with the server stored there. -/
theorem RoundRobin.callN_refs (servers : List Server) (k : Nat) :
    ∀ i, i < servers.length →
      ∃ sel, callN RoundRobin.getNextServer k ⟨servers, i⟩
          = .ok (sel, ⟨servers, (i + k) % servers.length⟩) ∧
        sel.map ServerRef.position
          = (List.range k).map (fun j => (i + j) % servers.length) ∧
        ∀ r ∈ sel, servers[r.position]? = some r.server := by
  induction k with
  | zero =>
    intro i hi
    exact ⟨[], by simp [callN, Nat.mod_eq_of_lt hi], by simp, by simp⟩
  | succ k ih =>
    intro i hi
    have hpos : 0 < servers.length := by omega
    obtain ⟨sel, hsel, hposs, hmem⟩ := ih ((i + 1) % servers.length) (Nat.mod_lt _ hpos)
    have hmod : ∀ j, ((i + 1) % servers.length + j) % servers.length
        = (i + (j + 1)) % servers.length := by
      intro j
      rw [Nat.add_mod, Nat.mod_mod, ← Nat.add_mod]
      congr 1
      omega
    refine ⟨⟨i, servers[i]⟩ :: sel, ?_, ?_, ?_⟩
    · simp [callN, RoundRobin.getNextServer_inRange servers i hi, hsel, hmod]
    · rw [List.range_succ_eq_map]
      simp [hposs, hmod, Nat.mod_eq_of_lt hi, Function.comp_def]
    · intro r hr
      rcases List.mem_cons.mp hr with hr | hr
      · subst hr
        exact List.getElem?_eq_getElem hi
      · exact hmem r hr

/-- The positions `i, i + 1, ..., i + N - 1` taken modulo `N` contain every
position below `N` exactly once. -/
theorem count_rotation (n i p : Nat) (hp : p < n) :
    ((List.range n).map (fun j => (i + j) % n)).count p = 1 := by
  apply List.count_eq_one_of_mem
  · apply List.Nodup.map_on _ (List.nodup_range n)
    intro x hx y hy hxy
    have hx1 : x < n := List.mem_range.mp hx
    have hy1 : y < n := List.mem_range.mp hy
    have hmod : x % n = y % n := Nat.ModEq.add_left_cancel' i hxy
    rwa [Nat.mod_eq_of_lt hx1, Nat.mod_eq_of_lt hy1] at hmod
  · refine List.mem_map.mpr ⟨(p + (n - i % n)) % n, List.mem_range.mpr (Nat.mod_lt _ (by omega)), ?_⟩
    have hi : i % n < n := Nat.mod_lt _ (by omega)
    have h1 : (i + (p + (n - i % n)) % n) % n = (i % n + (p + (n - i % n))) % n := by
      rw [Nat.add_mod i, Nat.mod_mod, Nat.add_mod (i % n) (p + (n - i % n)), Nat.mod_mod]
    rw [h1]
    have h2 : i % n + (p + (n - i % n)) = p + n := by omega
    rw [h2, Nat.add_mod_right, Nat.mod_eq_of_lt hp]

/-- Claim C11.  For every non-empty pool of size `N` and every state of a
`RoundRobin` reached from the fresh one by any number `m` of calls, the next `N`
calls return `N` references in which every position of the pool occurs exactly
once, and for every `k` call number `k + N` returns what call number `k`
returns. -/
theorem RoundRobin_next_N_calls_visit_each_once_and_repeat (servers : List Server)
    (hne : servers ≠ []) (m : Nat) :
    ∃ sel0 s, callN RoundRobin.getNextServer m (RoundRobin.new servers) = .ok (sel0, s) ∧
      (∃ sel s1, callN RoundRobin.getNextServer servers.length s = .ok (sel, s1) ∧
        sel.length = servers.length ∧
        (∀ r ∈ sel, servers[r.position]? = some r.server) ∧
        ∀ p, p < servers.length → (sel.map ServerRef.position).count p = 1) ∧
      ∀ k, ∃ r, nthCall RoundRobin.getNextServer k s = .ok r ∧
        nthCall RoundRobin.getNextServer (k + servers.length) s = .ok r := by
  have hpos : 0 < servers.length := List.length_pos.mpr hne
  obtain ⟨sel0, hsel0⟩ := RoundRobin.callN_cursor servers m 0 hpos
  have hi : (0 + m) % servers.length < servers.length := Nat.mod_lt _ hpos
  refine ⟨sel0, _, hsel0, ?_, ?_⟩
  · obtain ⟨sel, hsel, hposs, hmem⟩ :=
      RoundRobin.callN_refs servers servers.length _ hi
    refine ⟨sel, _, hsel, ?_, hmem, ?_⟩
    · have := congrArg List.length hposs
      simpa using this
    · intro p hp
      rw [hposs]
      exact count_rotation servers.length _ p hp
  · intro k
    obtain ⟨sel1, hsel1⟩ := RoundRobin.callN_cursor servers k _ hi
    obtain ⟨sel2, hsel2⟩ := RoundRobin.callN_cursor servers (k + servers.length) _ hi
    have hcur : ((0 + m) % servers.length + (k + servers.length)) % servers.length
        = ((0 + m) % servers.length + k) % servers.length := by
      rw [← Nat.add_assoc, Nat.add_mod_right]
    rw [hcur] at hsel2
    have hlt : ((0 + m) % servers.length + k) % servers.length < servers.length :=
      Nat.mod_lt _ hpos
    refine ⟨⟨((0 + m) % servers.length + k) % servers.length,
      servers[((0 + m) % servers.length + k) % servers.length]⟩, ?_, ?_⟩
    · simp only [nthCall, hsel1, RoundRobin.getNextServer_inRange servers _ hlt]
    · simp only [nthCall, hsel2, RoundRobin.getNextServer_inRange servers _ hlt]

/-- Claim C11 at the pool of `main`, in the state reached after four calls. -/
theorem RoundRobin_next_N_calls_visit_each_once_and_repeat_witness :
    mainServers ≠ [] ∧
    selectedPositions RoundRobin.getNextServer 7 (RoundRobin.new mainServers)
      = .ok [0, 1, 2, 0, 1, 2, 0] ∧
    ∃ sel0 s, callN RoundRobin.getNextServer 4 (RoundRobin.new mainServers) = .ok (sel0, s) ∧
      (∃ sel s1, callN RoundRobin.getNextServer mainServers.length s = .ok (sel, s1) ∧
        sel.length = mainServers.length ∧
        (∀ r ∈ sel, mainServers[r.position]? = some r.server) ∧
        ∀ p, p < mainServers.length → (sel.map ServerRef.position).count p = 1) ∧
      ∀ k, ∃ r, nthCall RoundRobin.getNextServer k s = .ok r ∧
        nthCall RoundRobin.getNextServer (k + mainServers.length) s = .ok r :=
  ⟨by simp [mainServers], rfl,
    RoundRobin_next_N_calls_visit_each_once_and_repeat mainServers
      (by simp [mainServers]) 4⟩

/-! ### Selection does not change the pool -/

/-- The test of lines 55-57 leaves the members as they are. -/
theorem WeightedRoundRobin.accept_state (s : WeightedRoundRobin) (step : Iteration)
    (h : s.accept = .ok step) :
    (∀ r s1, step = .returned r s1 → s1 = s) ∧ (∀ s1, step = .again s1 → s1 = s) := by
  unfold WeightedRoundRobin.accept at h
  split at h
  · exact Except.noConfusion h
  · split at h
    · injection h with h
      subst h
      exact ⟨fun r s1 h1 => by injection h1 with _ h2; exact h2.symm,
        fun s1 h1 => Iteration.noConfusion h1⟩
    · injection h with h
      subst h
      exact ⟨fun r s1 h1 => Iteration.noConfusion h1,
        fun s1 h1 => by injection h1 with h2; exact h2.symm⟩

/-- One pass through the loop body of `WeightedRoundRobin::getNextServer` leaves
the vector `servers` as it is. -/
theorem WeightedRoundRobin.iteration_servers (s : WeightedRoundRobin) (step : Iteration)
    (h : s.iteration = .ok step) :
    (∀ r s1, step = .returned r s1 → s1.servers = s.servers) ∧
      (∀ s1, step = .again s1 → s1.servers = s.servers) := by
  have hacc : ∀ (i : Nat) (c : Int),
      WeightedRoundRobin.accept ⟨s.servers, i, c⟩ = .ok step →
      (∀ r s1, step = .returned r s1 → s1.servers = s.servers) ∧
        (∀ s1, step = .again s1 → s1.servers = s.servers) := by
    intro i c hstep
    obtain ⟨h1, h2⟩ := WeightedRoundRobin.accept_state _ step hstep
    exact ⟨fun r s1 e => by rw [h1 r s1 e], fun s1 e => by rw [h2 s1 e]⟩
  unfold WeightedRoundRobin.iteration at h
  split at h
  · exact Except.noConfusion h
  · simp only at h
    split at h
    · split at h
      · exact Except.noConfusion h
      · split at h
        · exact Except.noConfusion h
        · split at h
          · split at h
            · exact Except.noConfusion h
            · split at h
              · split at h
                · exact Except.noConfusion h
                · injection h with h
                  subst h
                  exact ⟨fun r s1 h1 => by injection h1 with _ h2; rw [← h2],
                    fun s1 h1 => Iteration.noConfusion h1⟩
              · exact hacc _ _ h
          · exact hacc _ _ h
    · exact hacc _ _ h

/-- A call of `WeightedRoundRobin::getNextServer` leaves the vector `servers` as
it is. -/
theorem WeightedRoundRobin.getNextServer_servers (fuel : Nat) :
    ∀ (s : WeightedRoundRobin) (r : ServerRef) (s1 : WeightedRoundRobin),
      WeightedRoundRobin.getNextServer fuel s = .ok (r, s1) → s1.servers = s.servers := by
  induction fuel with
  | zero =>
    intro s r s1 h
    exact Except.noConfusion h
  | succ fuel ih =>
    intro s r s1 h
    simp only [WeightedRoundRobin.getNextServer] at h
    cases hit : s.iteration with
    | error e => simp [hit] at h
    | ok step =>
      obtain ⟨h1, h2⟩ := WeightedRoundRobin.iteration_servers s step hit
      cases step with
      | returned r2 s2 =>
        simp only [hit] at h
        injection h with h
        injection h with _ hs
        rw [← hs]
        exact h1 r2 s2 rfl
      | again s2 =>
        simp only [hit] at h
        rw [ih s2 r s1 h]
        exact h2 s2 rfl

/-- Claim C12.  A `getNextServer` call of any of the five strategies returns the
strategy with the same vector of servers, so the `ip`, `weight`, `connections`
and `responseTime` of every server are as before: `RoundRobin` changes at most
`currentIndex`, `WeightedRoundRobin` at most `currentIndex` and `currentWeight`,
and `LeastConnections`, `LeastResponseTime` and `IPHash` are returned as they
were. -/
theorem getNextServer_leaves_pool_unchanged :
    (∀ (s : RoundRobin) (r : ServerRef) (s1 : RoundRobin),
      s.getNextServer = .ok (r, s1) → s1.servers = s.servers) ∧
    (∀ (fuel : Nat) (s : WeightedRoundRobin) (r : ServerRef) (s1 : WeightedRoundRobin),
      WeightedRoundRobin.getNextServer fuel s = .ok (r, s1) → s1.servers = s.servers) ∧
    (∀ (s : LeastConnections) (r : ServerRef) (s1 : LeastConnections),
      s.getNextServer = .ok (r, s1) → s1 = s) ∧
    (∀ (s : LeastResponseTime) (r : ServerRef) (s1 : LeastResponseTime),
      s.getNextServer = .ok (r, s1) → s1 = s) ∧
    (∀ (hash : String → Nat) (s : IPHash) (key : String) (r : ServerRef) (s1 : IPHash),
      IPHash.getNextServer hash s key = .ok (r, s1) → s1 = s) := by
  refine ⟨?_, WeightedRoundRobin.getNextServer_servers, ?_, ?_, ?_⟩
  · intro s r s1 h
    unfold RoundRobin.getNextServer at h
    split at h
    · exact Except.noConfusion h
    · split at h
      · exact Except.noConfusion h
      · injection h with h
        injection h with _ hs
        rw [← hs]
  · intro s r s1 h
    unfold LeastConnections.getNextServer at h
    split at h
    · exact Except.noConfusion h
    · injection h with h
      injection h with _ hs
      exact hs.symm
  · intro s r s1 h
    unfold LeastResponseTime.getNextServer at h
    split at h
    · exact Except.noConfusion h
    · injection h with h
      injection h with _ hs
      exact hs.symm
  · intro hash s key r s1 h
    unfold IPHash.getNextServer at h
    split at h
    · exact Except.noConfusion h
    · split at h
      · exact Except.noConfusion h
      · injection h with h
        injection h with _ hs
        exact hs.symm

/-- Claim C12 at the pool of `main`: one call of each of the five strategies on
its freshly constructed object, with the length of the key as hash function. -/
theorem getNextServer_leaves_pool_unchanged_witness :
    ((RoundRobin.new mainServers).getNextServer
        = .ok (⟨0, Server.new "192.168.1.1" 1⟩, ⟨mainServers, 1⟩) ∧
      (⟨mainServers, 1⟩ : RoundRobin).servers = (RoundRobin.new mainServers).servers) ∧
    (WeightedRoundRobin.getNextServer 6 (WeightedRoundRobin.new mainServers)
        = .ok (⟨1, Server.new "192.168.1.2" 2⟩, ⟨mainServers, 1, 0⟩) ∧
      (⟨mainServers, 1, 0⟩ : WeightedRoundRobin).servers
        = (WeightedRoundRobin.new mainServers).servers) ∧
    ((LeastConnections.new mainServers).getNextServer
        = .ok (⟨0, Server.new "192.168.1.1" 1⟩, LeastConnections.new mainServers) ∧
      LeastConnections.new mainServers = LeastConnections.new mainServers) ∧
    ((LeastResponseTime.new mainServers).getNextServer
        = .ok (⟨0, Server.new "192.168.1.1" 1⟩, LeastResponseTime.new mainServers) ∧
      LeastResponseTime.new mainServers = LeastResponseTime.new mainServers) ∧
    (IPHash.getNextServer String.length (IPHash.new mainServers) "10.0.0.1"
        = .ok (⟨2, Server.new "192.168.1.3" 3⟩, IPHash.new mainServers) ∧
      IPHash.new mainServers = IPHash.new mainServers) :=
  ⟨⟨rfl, getNextServer_leaves_pool_unchanged.1 _ _ _ rfl⟩,
    ⟨rfl, getNextServer_leaves_pool_unchanged.2.1 6 _ _ _ rfl⟩,
    ⟨rfl, getNextServer_leaves_pool_unchanged.2.2.1 _ _ _ rfl⟩,
    ⟨rfl, getNextServer_leaves_pool_unchanged.2.2.2.1 _ _ _ rfl⟩,
    ⟨rfl, getNextServer_leaves_pool_unchanged.2.2.2.2 String.length _ "10.0.0.1" _ _ rfl⟩⟩

/-! ### Weighted Round Robin on concrete pools -/

/-- More fuel in every call does not change the positions returned by a run of
calls. -/
theorem WeightedRoundRobin.selectedPositions_fuel_mono (fuel extra n : Nat)
    (s : WeightedRoundRobin) (positions : List Nat)
    (h : selectedPositions (WeightedRoundRobin.getNextServer fuel) n s = .ok positions) :
    selectedPositions (WeightedRoundRobin.getNextServer (fuel + extra)) n s
      = .ok positions := by
  unfold selectedPositions at h ⊢
  cases hrun : callN (WeightedRoundRobin.getNextServer fuel) n s with
  | error e => simp [hrun] at h
  | ok r =>
    rw [WeightedRoundRobin.callN_fuel_mono fuel extra n s r hrun]
    simpa [hrun] using h

/-- More fuel in every call does not change the addresses printed by a run of
calls. -/
theorem WeightedRoundRobin.selectedIps_fuel_mono (fuel extra n : Nat)
    (s : WeightedRoundRobin) (ips : List String)
    (h : selectedIps (WeightedRoundRobin.getNextServer fuel) n s = .ok ips) :
    selectedIps (WeightedRoundRobin.getNextServer (fuel + extra)) n s = .ok ips := by
  unfold selectedIps at h ⊢
  cases hrun : callN (WeightedRoundRobin.getNextServer fuel) n s with
  | error e => simp [hrun] at h
  | ok r =>
    rw [WeightedRoundRobin.callN_fuel_mono fuel extra n s r hrun]
    simpa [hrun] using h

/-- More fuel does not change the result of call number `k`. -/
theorem WeightedRoundRobin.nthCall_fuel_mono (fuel extra k : Nat)
    (s : WeightedRoundRobin) (r : ServerRef)
    (h : nthCall (WeightedRoundRobin.getNextServer fuel) k s = .ok r) :
    nthCall (WeightedRoundRobin.getNextServer (fuel + extra)) k s = .ok r := by
  unfold nthCall at h ⊢
  cases hrun : callN (WeightedRoundRobin.getNextServer fuel) k s with
  | error e => simp [hrun] at h
  | ok run =>
    obtain ⟨sel, s1⟩ := run
    rw [WeightedRoundRobin.callN_fuel_mono fuel extra k s _ hrun]
    simp only [hrun] at h ⊢
    cases hcall : WeightedRoundRobin.getNextServer fuel s1 with
    | error e => simp [hcall] at h
    | ok res =>
      rw [WeightedRoundRobin.getNextServer_fuel_mono fuel extra s1 res hcall]
      simpa [hcall] using h

/-- Claim C13.  On the pool of `main`, weights 1, 2, 3, with any bound of at least
six iterations per call, the first six selections of a fresh `WeightedRoundRobin`
are the servers at positions 1, 2, 2, 1, 2, 0 (B, C, C, B, C, A): position 0
occurs once, position 1 twice, position 2 three times, and position 2 is not
returned three times in a row. -/
theorem WeightedRoundRobin_main_pool_first_six_selections :
    ∀ extra : Nat,
      selectedPositions (WeightedRoundRobin.getNextServer (6 + extra)) 6
          (WeightedRoundRobin.new mainServers) = .ok [1, 2, 2, 1, 2, 0] ∧
      selectedIps (WeightedRoundRobin.getNextServer (6 + extra)) 6
          (WeightedRoundRobin.new mainServers)
        = .ok ["192.168.1.2", "192.168.1.3", "192.168.1.3",
               "192.168.1.2", "192.168.1.3", "192.168.1.1"] ∧
      List.count 0 [1, 2, 2, 1, 2, 0] = 1 ∧
      List.count 1 [1, 2, 2, 1, 2, 0] = 2 ∧
      List.count 2 [1, 2, 2, 1, 2, 0] = 3 ∧
      ¬ List.IsInfix [2, 2, 2] [1, 2, 2, 1, 2, 0] := by
  intro extra
  exact ⟨WeightedRoundRobin.selectedPositions_fuel_mono 6 extra 6 _ _ rfl,
    WeightedRoundRobin.selectedIps_fuel_mono 6 extra 6 _ _ rfl,
    by decide, by decide, by decide, by decide⟩

/-- Claim C14, evaluated on the code at the pool with weights 2, 2, 3.  The
greatest common divisor of all weights is 1.  After three calls the strategy is
at cursor 2 with `currentWeight = 3`; in the next pass the cursor wraps to 0 and
`currentWeight` becomes 1: the amount subtracted is 2, the greatest common divisor
of the first two weights. -/
theorem WeightedRoundRobin_wrap_subtracts_gcd_of_first_two :
    gcdOfAllWeights [Server.new "a" 2, Server.new "b" 2, Server.new "c" 3] = 1 ∧
    Int.gcd (Server.new "a" 2).weight (Server.new "b" 2).weight = 2 ∧
    (callN (WeightedRoundRobin.getNextServer 6) 3
        (WeightedRoundRobin.new [Server.new "a" 2, Server.new "b" 2, Server.new "c" 3])).map
      Prod.snd
      = .ok ⟨[Server.new "a" 2, Server.new "b" 2, Server.new "c" 3], 2, 3⟩ ∧
    WeightedRoundRobin.iteration
        ⟨[Server.new "a" 2, Server.new "b" 2, Server.new "c" 3], 2, 3⟩
      = .ok (.returned ⟨0, Server.new "a" 2⟩
          ⟨[Server.new "a" 2, Server.new "b" 2, Server.new "c" 3], 0, 1⟩) ∧
    (3 : Int) - 1 ≠ gcdOfAllWeights [Server.new "a" 2, Server.new "b" 2, Server.new "c" 3] := by
  refine ⟨by decide, by decide, rfl, rfl, by decide⟩

/-- Claim C15 as stated fails on the code: on the fresh pool with weights 3 and 1
the lowest-index server of maximum weight is at position 0, but the first pass of
the first call advances the cursor to position 1 and returns the server there,
with `currentWeight` still 0. -/
theorem WeightedRoundRobin_first_call_not_first_maximum :
    maxElement weightLess [Server.new "a" 3, Server.new "b" 1]
      = some (0, Server.new "a" 3) ∧
    WeightedRoundRobin.iteration (WeightedRoundRobin.new [Server.new "a" 3, Server.new "b" 1])
      = .ok (.returned ⟨1, Server.new "b" 1⟩ ⟨[Server.new "a" 3, Server.new "b" 1], 1, 0⟩) ∧
    WeightedRoundRobin.getNextServer 4
        (WeightedRoundRobin.new [Server.new "a" 3, Server.new "b" 1])
      = .ok (⟨1, Server.new "b" 1⟩, ⟨[Server.new "a" 3, Server.new "b" 1], 1, 0⟩) :=
  ⟨rfl, rfl, rfl⟩

/-- Claim C15, amended.  On a freshly constructed `WeightedRoundRobin` over a pool
of at least two servers with positive weights, the first cursor advance lands on
position 1 with `currentWeight` still 0, and the first call returns the server at
position 1 in that first pass, whatever the weights. -/
theorem WeightedRoundRobin_first_call_returns_position_one (servers : List Server)
    (h2 : 2 ≤ servers.length) (hw : ∀ x ∈ servers, 0 < x.weight) (fuel : Nat) :
    ∃ server, servers[1]? = some server ∧
      WeightedRoundRobin.iteration (WeightedRoundRobin.new servers)
        = .ok (.returned ⟨1, server⟩ ⟨servers, 1, 0⟩) ∧
      WeightedRoundRobin.getNextServer (fuel + 1) (WeightedRoundRobin.new servers)
        = .ok (⟨1, server⟩, ⟨servers, 1, 0⟩) := by
  have h1 : 1 < servers.length := by omega
  have hn0 : servers.length ≠ 0 := by omega
  have hmod : (0 + 1) % servers.length = 1 := Nat.mod_eq_of_lt h1
  have hpos : (0 : Int) ≤ servers[1].weight := le_of_lt (hw _ (List.getElem_mem h1))
  have hit : WeightedRoundRobin.iteration (WeightedRoundRobin.new servers)
      = .ok (.returned ⟨1, servers[1]⟩ ⟨servers, 1, 0⟩) := by
    simp [WeightedRoundRobin.iteration, WeightedRoundRobin.accept, WeightedRoundRobin.new,
      hn0, hmod, Nat.mod_eq_of_lt h1, index, List.getElem?_eq_getElem h1, hpos]
  exact ⟨servers[1], List.getElem?_eq_getElem h1, hit,
    by simp [WeightedRoundRobin.getNextServer, hit]⟩

/-- Claim C15, amended, at the pool of `main`. -/
theorem WeightedRoundRobin_first_call_returns_position_one_witness :
    2 ≤ mainServers.length ∧ (∀ x ∈ mainServers, 0 < x.weight) ∧
    ∃ server, mainServers[1]? = some server ∧
      WeightedRoundRobin.iteration (WeightedRoundRobin.new mainServers)
        = .ok (.returned ⟨1, server⟩ ⟨mainServers, 1, 0⟩) ∧
      WeightedRoundRobin.getNextServer (5 + 1) (WeightedRoundRobin.new mainServers)
        = .ok (⟨1, server⟩, ⟨mainServers, 1, 0⟩) :=
  ⟨by decide, by simp [mainServers, Server.new],
    WeightedRoundRobin_first_call_returns_position_one mainServers (by decide)
      (by simp [mainServers, Server.new]) 5⟩

/-- A run of `a + b` calls is a run of `a` calls followed by a run of `b` calls. -/
theorem callN_add {σ : Type} (getNext : σ → Except Failure (ServerRef × σ)) (a b : Nat) :
    ∀ (s s1 s2 : σ) (sel1 sel2 : List ServerRef),
      callN getNext a s = .ok (sel1, s1) → callN getNext b s1 = .ok (sel2, s2) →
      callN getNext (a + b) s = .ok (sel1 ++ sel2, s2) := by
  induction a with
  | zero =>
    intro s s1 s2 sel1 sel2 h1 h2
    simp only [callN] at h1
    injection h1 with h1
    injection h1 with hsel hs
    subst hsel
    subst hs
    simpa using h2
  | succ a ih =>
    intro s s1 s2 sel1 sel2 h1 h2
    rw [Nat.add_right_comm]
    simp only [callN] at h1 ⊢
    cases hcall : getNext s with
    | error e => simp [hcall] at h1
    | ok res =>
      obtain ⟨r, s0⟩ := res
      simp only [hcall] at h1 ⊢
      cases hrest : callN getNext a s0 with
      | error e => simp [hrest] at h1
      | ok rest =>
        obtain ⟨sel, s3⟩ := rest
        simp only [hrest] at h1
        injection h1 with h1
        injection h1 with hsel hs
        subst hsel
        subst hs
        rw [ih s0 s3 s2 sel sel2 hrest h2]
        rfl

/-- On the pool with weights 2, 2, 1, once the cursor is at 0 or 1 with
`currentWeight = 2`, every further call moves the cursor to the other of the two
positions and keeps `currentWeight = 2`. -/
theorem WeightedRoundRobin.callN_pool221 (k : Nat) :
    ∀ i, i < 2 → ∃ sel, callN (WeightedRoundRobin.getNextServer 6) k ⟨pool221, i, 2⟩
      = .ok (sel, ⟨pool221, (i + k) % 2, 2⟩) := by
  induction k with
  | zero =>
    intro i hi
    exact ⟨[], by simp [callN, Nat.mod_eq_of_lt hi]⟩
  | succ k ih =>
    intro i hi
    have hstep : ∃ r, WeightedRoundRobin.getNextServer 6 ⟨pool221, i, 2⟩
        = .ok (r, ⟨pool221, (i + 1) % 2, 2⟩) := by
      rcases (by omega : i = 0 ∨ i = 1) with h | h
      · subst h
        exact ⟨_, rfl⟩
      · subst h
        exact ⟨_, rfl⟩
    obtain ⟨r, hr⟩ := hstep
    obtain ⟨sel, hsel⟩ := ih ((i + 1) % 2) (Nat.mod_lt _ (by decide))
    have hmod : ((i + 1) % 2 + k) % 2 = (i + (k + 1)) % 2 := by omega
    rw [hmod] at hsel
    exact ⟨r :: sel, by simp [callN, hr, hsel]⟩

/-- Claim C19.  On the pool of three servers with positive weights 2, 2, 1, with
any bound of at least six iterations per call, the second call of a fresh
`WeightedRoundRobin` (call number 1) returns the server at position 2, and every
later call (call number `k + 2`) returns the server at position `k mod 2`, never
the one at position 2. -/
theorem WeightedRoundRobin_weights_2_2_1_starve_position_two :
    pool221.map Server.weight = [2, 2, 1] ∧
    ∀ extra k : Nat,
      nthCall (WeightedRoundRobin.getNextServer (6 + extra)) 1
          (WeightedRoundRobin.new pool221) = .ok ⟨2, Server.new "c" 1⟩ ∧
      ∃ r, nthCall (WeightedRoundRobin.getNextServer (6 + extra)) (k + 2)
            (WeightedRoundRobin.new pool221) = .ok r ∧
        r.position = k % 2 ∧ r.position ≠ 2 := by
  refine ⟨rfl, ?_⟩
  intro extra k
  refine ⟨WeightedRoundRobin.nthCall_fuel_mono 6 extra 1 _ _ rfl, ?_⟩
  have hmain : ∃ r, nthCall (WeightedRoundRobin.getNextServer 6) (k + 2)
      (WeightedRoundRobin.new pool221) = .ok r ∧ r.position = k % 2 := by
    cases k with
    | zero => exact ⟨_, rfl, rfl⟩
    | succ k =>
      have h3 : ∃ sel, callN (WeightedRoundRobin.getNextServer 6) 3
          (WeightedRoundRobin.new pool221) = .ok (sel, ⟨pool221, 0, 2⟩) := ⟨_, rfl⟩
      obtain ⟨sel3, hsel3⟩ := h3
      obtain ⟨sel, hsel⟩ := WeightedRoundRobin.callN_pool221 k 0 (by decide)
      have hrun := callN_add (WeightedRoundRobin.getNextServer 6) 3 k _ _ _ _ _ hsel3 hsel
      have hk : k + 1 + 2 = 3 + k := by omega
      rw [hk]
      have hlt : (0 + k) % 2 < 2 := Nat.mod_lt _ (by decide)
      rcases (by omega : (0 + k) % 2 = 0 ∨ (0 + k) % 2 = 1) with h | h
      · rw [h] at hrun
        refine ⟨⟨1, Server.new "b" 2⟩, ?_, by simp at h ⊢; omega⟩
        simp only [nthCall, hrun]
        rfl
      · rw [h] at hrun
        refine ⟨⟨0, Server.new "a" 2⟩, ?_, by simp at h ⊢; omega⟩
        simp only [nthCall, hrun]
        rfl
  obtain ⟨r, hr, hpos⟩ := hmain
  refine ⟨r, WeightedRoundRobin.nthCall_fuel_mono 6 extra (k + 2) _ r hr, hpos, ?_⟩
  rw [hpos]
  omega

/-! ### Weighted Round Robin: the passes of the loop -/

/-- The test of lines 55-57 with the cursor inside the pool. -/
theorem WeightedRoundRobin.accept_inRange (servers : List Server) (p : Nat) (c : Int)
    (hp : p < servers.length) :
    WeightedRoundRobin.accept ⟨servers, p, c⟩
      = .ok (if servers[p].weight ≥ c then .returned ⟨p, servers[p]⟩ ⟨servers, p, c⟩
          else .again ⟨servers, p, c⟩) := by
  by_cases h : servers[p].weight ≥ c
  · simp [WeightedRoundRobin.accept, index, List.getElem?_eq_getElem hp, h]
  · simp [WeightedRoundRobin.accept, index, List.getElem?_eq_getElem hp, h]

/-- A pass in which the cursor does not wrap: the cursor advances and the server
under it is tested against the unchanged `currentWeight`. -/
theorem WeightedRoundRobin.iteration_noWrap (servers : List Server) (p : Nat) (c : Int)
    (hp : p + 1 < servers.length) :
    WeightedRoundRobin.iteration ⟨servers, p, c⟩
      = WeightedRoundRobin.accept ⟨servers, p + 1, c⟩ := by
  have hn0 : servers.length ≠ 0 := by omega
  have hmod : (p + 1) % servers.length = p + 1 := Nat.mod_eq_of_lt hp
  simp [WeightedRoundRobin.iteration, hn0, hmod]

/-- What `std::max_element` with the weight comparator finds on a non-empty pool:
a server of the pool whose weight, `maxWeight`, is at least every weight. -/
theorem maxWeight_spec (servers : List Server) (hne : servers ≠ []) :
    ∃ i m, maxElement weightLess servers = some (i, m) ∧ m.weight = maxWeight servers ∧
      servers[i]? = some m ∧ ∀ x ∈ servers, x.weight ≤ maxWeight servers := by
  obtain ⟨i, m, hmax, hget, hle, _⟩ :=
    maxElement_firstMax Server.weight weightLess (fun _ _ => rfl) servers hne
  have hmw : m.weight = maxWeight servers := by simp [maxWeight, hmax]
  refine ⟨i, m, hmax, hmw, hget, ?_⟩
  intro x hx
  obtain ⟨j, hj, hjx⟩ := List.getElem_of_mem hx
  rw [← hmw]
  exact hle j x (by rw [List.getElem?_eq_getElem hj, hjx])

/-- A pass in which the cursor wraps, on a pool of at least two servers with
non-negative weights: `currentWeight` becomes `nextWeight` and the server at
position 0 is tested against it. -/
theorem WeightedRoundRobin.iteration_wrap (servers : List Server)
    (h2 : 2 ≤ servers.length) (hnn : ∀ x ∈ servers, 0 ≤ x.weight)
    (p : Nat) (c : Int) (hp : p + 1 = servers.length) :
    WeightedRoundRobin.iteration ⟨servers, p, c⟩
      = WeightedRoundRobin.accept ⟨servers, 0, nextWeight servers c⟩ := by
  match servers, h2, hnn, hp with
  | a :: b :: rest, h2, hnn, hp =>
    have hne : a :: b :: rest ≠ [] := by simp
    obtain ⟨i, m, hmax, hmw, _, _⟩ := maxWeight_spec (a :: b :: rest) hne
    have ha : (0 : Int) ≤ a.weight := hnn a (by simp)
    have hmod : (p + 1) % (rest.length + 1 + 1) = 0 := by
      have : p + 1 = rest.length + 1 + 1 := by simpa using hp
      rw [this, Nat.mod_self]
    by_cases hc : c - (Int.gcd a.weight b.weight : Int) ≤ 0
    · by_cases hm : m.weight = 0
      · have hmw0 : maxWeight (a :: b :: rest) = 0 := by rw [← hmw, hm]
        simp [WeightedRoundRobin.iteration, WeightedRoundRobin.accept, index, hmod, hc,
          hmax, hm, nextWeight, wrapDecrement, hmw0, ha]
      · simp [WeightedRoundRobin.iteration, index, hmod, hc, hmax, hm, nextWeight,
          wrapDecrement, ← hmw]
    · simp [WeightedRoundRobin.iteration, index, hmod, hc, nextWeight, wrapDecrement]

/-- A run of passes splits into two consecutive runs. -/
theorem WeightedRoundRobin.iterations_add (a b : Nat) :
    ∀ (s s1 s2 : WeightedRoundRobin) (sel1 sel2 : List ServerRef),
      WeightedRoundRobin.iterations a s = .ok (sel1, s1) →
      WeightedRoundRobin.iterations b s1 = .ok (sel2, s2) →
      WeightedRoundRobin.iterations (a + b) s = .ok (sel1 ++ sel2, s2) := by
  induction a with
  | zero =>
    intro s s1 s2 sel1 sel2 h1 h2
    simp only [WeightedRoundRobin.iterations] at h1
    injection h1 with h1
    injection h1 with hsel hs
    subst hsel
    subst hs
    simpa using h2
  | succ a ih =>
    intro s s1 s2 sel1 sel2 h1 h2
    rw [Nat.add_right_comm]
    simp only [WeightedRoundRobin.iterations] at h1 ⊢
    cases hit : s.iteration with
    | error e => simp [hit] at h1
    | ok step =>
      cases step with
      | returned r s0 =>
        simp only [hit] at h1 ⊢
        cases hrest : WeightedRoundRobin.iterations a s0 with
        | error e => simp [hrest] at h1
        | ok rest =>
          obtain ⟨sel, s3⟩ := rest
          simp only [hrest] at h1
          injection h1 with h1
          injection h1 with hsel hs
          subst hsel
          subst hs
          rw [ih s0 s3 s2 sel sel2 hrest h2]
          rfl
      | again s0 =>
        simp only [hit] at h1 ⊢
        exact ih s0 s1 s2 sel1 sel2 h1 h2

/-- The rest of a sweep: from cursor `p`, the passes over the servers `rest` at
the positions after `p` return those that pass the test against `c`, and leave
the cursor at the last position. -/
theorem WeightedRoundRobin.iterations_restOfSweep (servers : List Server) (c : Int)
    (rest : List Server) :
    ∀ (pre : List Server) (p : Nat), servers = pre ++ rest → pre.length = p + 1 →
      WeightedRoundRobin.iterations rest.length ⟨servers, p, c⟩
        = .ok (acceptedAt c rest (p + 1), ⟨servers, p + rest.length, c⟩) := by
  induction rest with
  | nil =>
    intro pre p _ _
    simp [WeightedRoundRobin.iterations, acceptedAt]
  | cons x xs ih =>
    intro pre p hS hpre
    have hlen : servers.length = p + 1 + (xs.length + 1) := by
      rw [hS, List.length_append, hpre, List.length_cons]
    have hp1 : p + 1 < servers.length := by omega
    have hx : servers[p + 1] = x := by
      simp [hS, List.getElem_append_right, hpre]
    have hrest := ih (pre ++ [x]) (p + 1) (by simp [hS]) (by simp [hpre])
    have hstate : p + 1 + xs.length = p + (xs.length + 1) := by omega
    rw [hstate] at hrest
    simp only [List.length_cons, WeightedRoundRobin.iterations,
      WeightedRoundRobin.iteration_noWrap servers p c hp1,
      WeightedRoundRobin.accept_inRange servers (p + 1) c hp1, hx]
    by_cases hw : x.weight ≥ c
    · simp [hw, hrest, acceptedAt]
    · simp [hw, hrest, acceptedAt]

/-- A whole sweep on a pool of at least two servers with non-negative weights:
from the last position, `N` passes wrap the cursor, set `currentWeight` to
`nextWeight`, return the servers that pass the test against it, in order, and end
at the last position again. -/
theorem WeightedRoundRobin.iterations_sweep (servers : List Server)
    (h2 : 2 ≤ servers.length) (hnn : ∀ x ∈ servers, 0 ≤ x.weight)
    (p : Nat) (c : Int) (hp : p + 1 = servers.length) :
    WeightedRoundRobin.iterations servers.length ⟨servers, p, c⟩
      = .ok (acceptedAt (nextWeight servers c) servers 0,
          ⟨servers, p, nextWeight servers c⟩) := by
  match servers, h2, hnn, hp with
  | a :: rest, h2, hnn, hp =>
    have hrest := WeightedRoundRobin.iterations_restOfSweep (a :: rest)
      (nextWeight (a :: rest) c) rest [a] 0 rfl rfl
    have hp' : p = rest.length := by simpa using hp
    rw [Nat.zero_add] at hrest
    simp only [List.length_cons, WeightedRoundRobin.iterations,
      WeightedRoundRobin.iteration_wrap (a :: rest) h2 hnn p c hp,
      WeightedRoundRobin.accept_inRange (a :: rest) 0 _ (by simp), List.getElem_cons_zero]
    by_cases hw : a.weight ≥ nextWeight (a :: rest) c
    · simp [hw, hrest, acceptedAt, hp']
    · simp [hw, hrest, acceptedAt, hp']

/-- The first `k` references returned in a run of `n` passes are what `k` calls of
`getNextServer` return, when each call may use up to `n` passes. -/
theorem WeightedRoundRobin.callN_of_iterations (n : Nat) :
    ∀ (s s1 : WeightedRoundRobin) (sel : List ServerRef) (k : Nat),
      WeightedRoundRobin.iterations n s = .ok (sel, s1) → k ≤ sel.length →
      ∃ s2, callN (WeightedRoundRobin.getNextServer n) k s = .ok (sel.take k, s2) := by
  induction n with
  | zero =>
    intro s s1 sel k h hk
    simp only [WeightedRoundRobin.iterations] at h
    injection h with h
    injection h with hsel _
    subst hsel
    have hk0 : k = 0 := by simpa using hk
    subst hk0
    exact ⟨s, rfl⟩
  | succ n ih =>
    intro s s1 sel k h hk
    cases k with
    | zero => exact ⟨s, by simp [callN]⟩
    | succ k =>
      simp only [WeightedRoundRobin.iterations] at h
      cases hit : s.iteration with
      | error e => simp [hit] at h
      | ok step =>
        cases step with
        | returned r s0 =>
          simp only [hit] at h
          cases hrest : WeightedRoundRobin.iterations n s0 with
          | error e => simp [hrest] at h
          | ok rest =>
            obtain ⟨sel0, s3⟩ := rest
            simp only [hrest] at h
            injection h with h
            injection h with hsel _
            subst hsel
            obtain ⟨s2, hs2⟩ := ih s0 s3 sel0 k hrest (by simpa using hk)
            have hs2' := WeightedRoundRobin.callN_fuel_mono n 1 k s0 _ hs2
            have hfirst : WeightedRoundRobin.getNextServer (n + 1) s = .ok (r, s0) := by
              simp [WeightedRoundRobin.getNextServer, hit]
            refine ⟨s2, ?_⟩
            simp only [callN, hfirst, hs2', List.take_succ_cons]
        | again s0 =>
          simp only [hit] at h
          obtain ⟨s2, hs2⟩ := ih s0 s1 sel (k + 1) h hk
          simp only [callN] at hs2
          cases hcall : WeightedRoundRobin.getNextServer n s0 with
          | error e => simp [hcall] at hs2
          | ok res =>
            obtain ⟨r, s4⟩ := res
            simp only [hcall] at hs2
            cases hrun : callN (WeightedRoundRobin.getNextServer n) k s4 with
            | error e => simp [hrun] at hs2
            | ok run =>
              obtain ⟨sel0, s5⟩ := run
              simp only [hrun] at hs2
              have hrun' := WeightedRoundRobin.callN_fuel_mono n 1 k s4 _ hrun
              have hfirst : WeightedRoundRobin.getNextServer (n + 1) s = .ok (r, s4) := by
                simp [WeightedRoundRobin.getNextServer, hit, hcall]
              refine ⟨s2, ?_⟩
              simp only [callN, hfirst, hrun']
              exact hs2

/-! ### Weighted Round Robin: invariant and termination -/

/-- The decrement of line 48 is not negative. -/
theorem wrapDecrement_nonneg (servers : List Server) : 0 ≤ wrapDecrement servers := by
  unfold wrapDecrement
  split
  · exact Int.ofNat_nonneg _
  · exact le_refl 0

/-- On a non-empty pool with non-negative weights the value of `currentWeight`
after a wraparound lies between 0 and the maximum weight if it did before. -/
theorem nextWeight_bounds (servers : List Server) (hne : servers ≠ [])
    (hnn : ∀ x ∈ servers, 0 ≤ x.weight) (c : Int) (hc : c ≤ maxWeight servers) :
    0 ≤ nextWeight servers c ∧ nextWeight servers c ≤ maxWeight servers := by
  obtain ⟨i, m, _, hmw, hget, _⟩ := maxWeight_spec servers hne
  have hM : 0 ≤ maxWeight servers := by
    rw [← hmw]
    exact hnn m (List.getElem?_mem hget)
  have hd := wrapDecrement_nonneg servers
  unfold nextWeight
  split
  · exact ⟨hM, le_refl _⟩
  · constructor <;> omega

/-- One pass through the loop body from a state within the invariant (cursor
inside the pool, `currentWeight` between 0 and the maximum weight), on a pool of
at least two servers with non-negative weights: the pass ends within the
invariant, and if it returns, it returns the server under the cursor, whose
weight is at least `currentWeight`. -/
theorem WeightedRoundRobin.iteration_invariant (servers : List Server)
    (h2 : 2 ≤ servers.length) (hnn : ∀ x ∈ servers, 0 ≤ x.weight)
    (p : Nat) (c : Int) (hp : p < servers.length) (hc0 : 0 ≤ c)
    (hcM : c ≤ maxWeight servers) :
    ∃ p1 c1 x, servers[p1]? = some x ∧ 0 ≤ c1 ∧ c1 ≤ maxWeight servers ∧
      (WeightedRoundRobin.iteration ⟨servers, p, c⟩ = .ok (.again ⟨servers, p1, c1⟩) ∨
        (WeightedRoundRobin.iteration ⟨servers, p, c⟩
            = .ok (.returned ⟨p1, x⟩ ⟨servers, p1, c1⟩) ∧ x.weight ≥ c1)) := by
  have hne : servers ≠ [] := by
    intro hnil
    simp [hnil] at h2
  by_cases hw : p + 1 < servers.length
  · refine ⟨p + 1, c, servers[p + 1], List.getElem?_eq_getElem hw, hc0, hcM, ?_⟩
    rw [WeightedRoundRobin.iteration_noWrap servers p c hw,
      WeightedRoundRobin.accept_inRange servers (p + 1) c hw]
    by_cases ha : servers[p + 1].weight ≥ c
    · right
      simp [ha]
    · left
      simp [ha]
  · have hp1 : p + 1 = servers.length := by omega
    have h0 : 0 < servers.length := by omega
    obtain ⟨hb0, hbM⟩ := nextWeight_bounds servers hne hnn c hcM
    refine ⟨0, nextWeight servers c, servers[0], List.getElem?_eq_getElem h0, hb0, hbM, ?_⟩
    rw [WeightedRoundRobin.iteration_wrap servers h2 hnn p c hp1,
      WeightedRoundRobin.accept_inRange servers 0 _ h0]
    by_cases ha : servers[0].weight ≥ nextWeight servers c
    · right
      simp [ha]
    · left
      simp [ha]

/-- A call of `getNextServer` from a state within the invariant, if it returns,
returns the server under the final cursor, whose weight is at least the final
`currentWeight`, and ends within the invariant. -/
theorem WeightedRoundRobin.getNextServer_invariant (servers : List Server)
    (h2 : 2 ≤ servers.length) (hnn : ∀ x ∈ servers, 0 ≤ x.weight) (fuel : Nat) :
    ∀ (p : Nat) (c : Int), p < servers.length → 0 ≤ c → c ≤ maxWeight servers →
      ∀ (r : ServerRef) (s1 : WeightedRoundRobin),
        WeightedRoundRobin.getNextServer fuel ⟨servers, p, c⟩ = .ok (r, s1) →
        ∃ p1 c1 x, s1 = ⟨servers, p1, c1⟩ ∧ r = ⟨p1, x⟩ ∧ servers[p1]? = some x ∧
          0 ≤ c1 ∧ c1 ≤ maxWeight servers ∧ x.weight ≥ c1 := by
  induction fuel with
  | zero =>
    intro p c _ _ _ r s1 h
    exact Except.noConfusion h
  | succ fuel ih =>
    intro p c hp hc0 hcM r s1 h
    obtain ⟨p1, c1, x, hx, hc10, hc1M, hstep⟩ :=
      WeightedRoundRobin.iteration_invariant servers h2 hnn p c hp hc0 hcM
    have hp1 : p1 < servers.length := by
      by_contra hcon
      rw [List.getElem?_eq_none (by omega)] at hx
      exact Option.noConfusion hx
    simp only [WeightedRoundRobin.getNextServer] at h
    rcases hstep with hagain | ⟨hret, hwt⟩
    · simp only [hagain] at h
      exact ih p1 c1 hp1 hc10 hc1M r s1 h
    · simp only [hret] at h
      injection h with h
      injection h with hr hs
      exact ⟨p1, c1, x, hs.symm, hr.symm, hx, hc10, hc1M, hwt⟩

/-- A sweep over servers among which one passes the test returns at least one
reference. -/
theorem acceptedAt_length_pos (c : Int) (xs : List Server) :
    ∀ j, (∃ x ∈ xs, x.weight ≥ c) → 0 < (acceptedAt c xs j).length := by
  induction xs with
  | nil =>
    intro j h
    obtain ⟨x, hx, _⟩ := h
    simp at hx
  | cons y ys ih =>
    intro j h
    by_cases hy : y.weight ≥ c
    · simp [acceptedAt, hy]
    · obtain ⟨x, hx, hxc⟩ := h
      rcases List.mem_cons.mp hx with hxy | hxys
      · rw [hxy] at hxc
        exact absurd hxc hy
      · simpa [acceptedAt, hy] using ih (j + 1) ⟨x, hxys, hxc⟩

/-- Termination.  On a pool of `N ≥ 2` servers with non-negative weights, a call
of `getNextServer` from a state with the cursor inside the pool and
`currentWeight` at most the maximum weight returns within `2 N` passes. -/
theorem WeightedRoundRobin.getNextServer_terminates (servers : List Server)
    (h2 : 2 ≤ servers.length) (hnn : ∀ x ∈ servers, 0 ≤ x.weight)
    (p : Nat) (c : Int) (hp : p < servers.length) (hcM : c ≤ maxWeight servers)
    (extra : Nat) :
    ∃ r s1, WeightedRoundRobin.getNextServer (2 * servers.length + extra) ⟨servers, p, c⟩
      = .ok (r, s1) := by
  have hne : servers ≠ [] := by
    intro hnil
    simp [hnil] at h2
  have hsplit : servers = servers.take (p + 1) ++ servers.drop (p + 1) :=
    (List.take_append_drop (p + 1) servers).symm
  have hpre : (servers.take (p + 1)).length = p + 1 := by
    rw [List.length_take]
    omega
  have hrestlen : (servers.drop (p + 1)).length = servers.length - (p + 1) :=
    List.length_drop _ _
  have h1 := WeightedRoundRobin.iterations_restOfSweep servers c (servers.drop (p + 1))
    (servers.take (p + 1)) p hsplit hpre
  have h3 := WeightedRoundRobin.iterations_sweep servers h2 hnn
    (p + (servers.drop (p + 1)).length) c (by omega)
  have hadd := WeightedRoundRobin.iterations_add _ _ _ _ _ _ _ h1 h3
  obtain ⟨i, m, _, hmw, hget, _⟩ := maxWeight_spec servers hne
  obtain ⟨_, hbM⟩ := nextWeight_bounds servers hne hnn c hcM
  have hacc : 0 < (acceptedAt (nextWeight servers c) servers 0).length :=
    acceptedAt_length_pos _ servers 0 ⟨m, List.getElem?_mem hget, by rw [hmw]; exact hbM⟩
  obtain ⟨s2, hs2⟩ := WeightedRoundRobin.callN_of_iterations _ _ _ _ 1 hadd
    (by rw [List.length_append]; omega)
  simp only [callN] at hs2
  cases hcall : WeightedRoundRobin.getNextServer
      ((servers.drop (p + 1)).length + servers.length) ⟨servers, p, c⟩ with
  | error e =>
    rw [hcall] at hs2
    exact Except.noConfusion hs2
  | ok res =>
    have hfuel : 2 * servers.length + extra
        = ((servers.drop (p + 1)).length + servers.length) + (p + 1 + extra) := by omega
    rw [hfuel]
    exact ⟨res.1, res.2, WeightedRoundRobin.getNextServer_fuel_mono _ _ _ _ hcall⟩

/-- A run of calls from a state within the invariant, if it completes, ends within
the invariant. -/
theorem WeightedRoundRobin.callN_invariant (servers : List Server)
    (h2 : 2 ≤ servers.length) (hnn : ∀ x ∈ servers, 0 ≤ x.weight) (fuel m : Nat) :
    ∀ (p : Nat) (c : Int), p < servers.length → 0 ≤ c → c ≤ maxWeight servers →
      ∀ (sel : List ServerRef) (s1 : WeightedRoundRobin),
        callN (WeightedRoundRobin.getNextServer fuel) m ⟨servers, p, c⟩ = .ok (sel, s1) →
        ∃ p1 c1, s1 = ⟨servers, p1, c1⟩ ∧ p1 < servers.length ∧ 0 ≤ c1 ∧
          c1 ≤ maxWeight servers := by
  induction m with
  | zero =>
    intro p c hp hc0 hcM sel s1 h
    simp only [callN] at h
    injection h with h
    injection h with _ hs
    exact ⟨p, c, hs.symm, hp, hc0, hcM⟩
  | succ m ih =>
    intro p c hp hc0 hcM sel s1 h
    simp only [callN] at h
    cases hcall : WeightedRoundRobin.getNextServer fuel ⟨servers, p, c⟩ with
    | error e => simp [hcall] at h
    | ok res =>
      obtain ⟨r, s0⟩ := res
      obtain ⟨p1, c1, x, hs0, _, hx, hc10, hc1M, _⟩ :=
        WeightedRoundRobin.getNextServer_invariant servers h2 hnn fuel p c hp hc0 hcM r s0
          hcall
      have hp1 : p1 < servers.length := by
        by_contra hcon
        rw [List.getElem?_eq_none (by omega)] at hx
        exact Option.noConfusion hx
      subst hs0
      simp only [hcall] at h
      cases hrun : callN (WeightedRoundRobin.getNextServer fuel) m ⟨servers, p1, c1⟩ with
      | error e => simp [hrun] at h
      | ok run =>
        obtain ⟨sel0, s3⟩ := run
        simp only [hrun] at h
        injection h with h
        injection h with _ hs
        subst hs
        exact ih p1 c1 hp1 hc10 hc1M sel0 s3 hrun

/-- A run of any number of calls from a state within the invariant completes when
each call may use `2 N` passes or more. -/
theorem WeightedRoundRobin.callN_terminates (servers : List Server)
    (h2 : 2 ≤ servers.length) (hnn : ∀ x ∈ servers, 0 ≤ x.weight) (extra m : Nat) :
    ∀ (p : Nat) (c : Int), p < servers.length → 0 ≤ c → c ≤ maxWeight servers →
      ∃ sel s1, callN (WeightedRoundRobin.getNextServer (2 * servers.length + extra)) m
        ⟨servers, p, c⟩ = .ok (sel, s1) := by
  induction m with
  | zero =>
    intro p c _ _ _
    exact ⟨[], _, rfl⟩
  | succ m ih =>
    intro p c hp hc0 hcM
    obtain ⟨r, s0, hcall⟩ :=
      WeightedRoundRobin.getNextServer_terminates servers h2 hnn p c hp hcM extra
    obtain ⟨p1, c1, x, hs0, _, hx, hc10, hc1M, _⟩ :=
      WeightedRoundRobin.getNextServer_invariant servers h2 hnn _ p c hp hc0 hcM r s0 hcall
    have hp1 : p1 < servers.length := by
      by_contra hcon
      rw [List.getElem?_eq_none (by omega)] at hx
      exact Option.noConfusion hx
    subst hs0
    obtain ⟨sel, s1, hrun⟩ := ih p1 c1 hp1 hc10 hc1M
    exact ⟨r :: sel, s1, by simp only [callN, hcall, hrun]⟩

/-- The maximum weight of a non-empty pool with non-negative weights is not
negative. -/
theorem maxWeight_nonneg (servers : List Server) (hne : servers ≠ [])
    (hnn : ∀ x ∈ servers, 0 ≤ x.weight) : 0 ≤ maxWeight servers := by
  obtain ⟨i, m, _, hmw, hget, _⟩ := maxWeight_spec servers hne
  rw [← hmw]
  exact hnn m (List.getElem?_mem hget)

/-- Claim C16.  On a pool of `N ≥ 2` servers with non-negative weights (all
weights 0 included), a run of any number of calls of a fresh
`WeightedRoundRobin` completes when each call may take `2 N` passes through the
loop; and in every state reached from the fresh strategy by any number of calls
the loop of `getNextServer` returns a server within `2 N` passes, that is, `2 N`
cursor advances. -/
theorem WeightedRoundRobin_returns_within_2N_advances (servers : List Server)
    (h2 : 2 ≤ servers.length) (hnn : ∀ x ∈ servers, 0 ≤ x.weight) :
    (∀ m : Nat, ∃ sel s,
      callN (WeightedRoundRobin.getNextServer (2 * servers.length)) m
        (WeightedRoundRobin.new servers) = .ok (sel, s)) ∧
    (∀ (m fuel : Nat) (sel : List ServerRef) (s : WeightedRoundRobin),
      callN (WeightedRoundRobin.getNextServer fuel) m (WeightedRoundRobin.new servers)
        = .ok (sel, s) →
      ∃ r s1, WeightedRoundRobin.getNextServer (2 * servers.length) s = .ok (r, s1)) := by
  have hne : servers ≠ [] := by
    intro hnil
    simp [hnil] at h2
  have hM := maxWeight_nonneg servers hne hnn
  constructor
  · intro m
    exact WeightedRoundRobin.callN_terminates servers h2 hnn 0 m 0 0 (by omega)
      (le_refl 0) hM
  · intro m fuel sel s h
    obtain ⟨p1, c1, hs, hp1, _, hc1M⟩ :=
      WeightedRoundRobin.callN_invariant servers h2 hnn fuel m 0 0 (by omega) (le_refl 0)
        hM sel s h
    subst hs
    exact WeightedRoundRobin.getNextServer_terminates servers h2 hnn p1 c1 hp1 hc1M 0

/-- Claim C16 at the pool of three servers of weight 0, in the state reached after
four calls. -/
theorem WeightedRoundRobin_returns_within_2N_advances_witness :
    2 ≤ [Server.new "a" 0, Server.new "b" 0, Server.new "c" 0].length ∧
    (∀ x ∈ [Server.new "a" 0, Server.new "b" 0, Server.new "c" 0], 0 ≤ x.weight) ∧
    callN (WeightedRoundRobin.getNextServer 1) 4
        (WeightedRoundRobin.new [Server.new "a" 0, Server.new "b" 0, Server.new "c" 0])
      = .ok ([⟨1, Server.new "b" 0⟩, ⟨2, Server.new "c" 0⟩, ⟨0, Server.new "a" 0⟩,
          ⟨1, Server.new "b" 0⟩],
        ⟨[Server.new "a" 0, Server.new "b" 0, Server.new "c" 0], 1, 0⟩) ∧
    ∃ r s1, WeightedRoundRobin.getNextServer
        (2 * [Server.new "a" 0, Server.new "b" 0, Server.new "c" 0].length)
        ⟨[Server.new "a" 0, Server.new "b" 0, Server.new "c" 0], 1, 0⟩ = .ok (r, s1) :=
  ⟨by decide, by simp [Server.new], rfl,
    (WeightedRoundRobin_returns_within_2N_advances
      [Server.new "a" 0, Server.new "b" 0, Server.new "c" 0] (by decide)
      (by simp [Server.new])).2 4 1 _ _ rfl⟩

/-- Claim C17.  On a pool of `N ≥ 2` servers with non-negative weights, every call
of `getNextServer` on a strategy started fresh (call number `m`, with `2 N` passes
or more allowed per call) returns, and afterwards `currentIndex < N`,
`0 ≤ currentWeight ≤ maxWeight`, where `maxWeight` is the largest weight in the
pool, and the reference returned is the server at position `currentIndex`, whose
weight is at least `currentWeight`. -/
theorem WeightedRoundRobin_state_invariant (servers : List Server)
    (h2 : 2 ≤ servers.length) (hnn : ∀ x ∈ servers, 0 ≤ x.weight) (m extra : Nat) :
    ∃ sel s r s1,
      callN (WeightedRoundRobin.getNextServer (2 * servers.length + extra)) m
        (WeightedRoundRobin.new servers) = .ok (sel, s) ∧
      WeightedRoundRobin.getNextServer (2 * servers.length + extra) s = .ok (r, s1) ∧
      s1.servers = servers ∧ s1.currentIndex < servers.length ∧
      0 ≤ s1.currentWeight ∧ s1.currentWeight ≤ maxWeight servers ∧
      (∃ x ∈ servers, x.weight = maxWeight servers) ∧
      (∀ x ∈ servers, x.weight ≤ maxWeight servers) ∧
      r.position = s1.currentIndex ∧ servers[s1.currentIndex]? = some r.server ∧
      r.server.weight ≥ s1.currentWeight := by
  have hne : servers ≠ [] := by
    intro hnil
    simp [hnil] at h2
  have hM := maxWeight_nonneg servers hne hnn
  obtain ⟨i, mx, _, hmw, hget, hle⟩ := maxWeight_spec servers hne
  obtain ⟨sel, s, hrun⟩ := WeightedRoundRobin.callN_terminates servers h2 hnn extra m 0 0
    (by omega) (le_refl 0) hM
  obtain ⟨p1, c1, hs, hp1, hc10, hc1M⟩ :=
    WeightedRoundRobin.callN_invariant servers h2 hnn _ m 0 0 (by omega) (le_refl 0) hM
      sel s hrun
  subst hs
  obtain ⟨r, s1, hcall⟩ :=
    WeightedRoundRobin.getNextServer_terminates servers h2 hnn p1 c1 hp1 hc1M extra
  obtain ⟨p2, c2, x, hs1, hr, hx, hc20, hc2M, hwt⟩ :=
    WeightedRoundRobin.getNextServer_invariant servers h2 hnn _ p1 c1 hp1 hc10 hc1M r s1
      hcall
  have hp2 : p2 < servers.length := by
    by_contra hcon
    rw [List.getElem?_eq_none (by omega)] at hx
    exact Option.noConfusion hx
  subst hs1
  subst hr
  exact ⟨sel, _, _, _, hrun, hcall, rfl, hp2, hc20, hc2M,
    ⟨mx, List.getElem?_mem hget, hmw⟩, hle, rfl, hx, hwt⟩

/-- Claim C17 at the pool with weights 0, 3, 1, call number 5. -/
theorem WeightedRoundRobin_state_invariant_witness :
    2 ≤ [Server.new "a" 0, Server.new "b" 3, Server.new "c" 1].length ∧
    (∀ x ∈ [Server.new "a" 0, Server.new "b" 3, Server.new "c" 1], 0 ≤ x.weight) ∧
    ∃ sel s r s1,
      callN (WeightedRoundRobin.getNextServer
          (2 * [Server.new "a" 0, Server.new "b" 3, Server.new "c" 1].length + 0)) 5
        (WeightedRoundRobin.new [Server.new "a" 0, Server.new "b" 3, Server.new "c" 1])
        = .ok (sel, s) ∧
      WeightedRoundRobin.getNextServer
          (2 * [Server.new "a" 0, Server.new "b" 3, Server.new "c" 1].length + 0) s
        = .ok (r, s1) ∧
      s1.servers = [Server.new "a" 0, Server.new "b" 3, Server.new "c" 1] ∧
      s1.currentIndex < [Server.new "a" 0, Server.new "b" 3, Server.new "c" 1].length ∧
      0 ≤ s1.currentWeight ∧
      s1.currentWeight ≤ maxWeight [Server.new "a" 0, Server.new "b" 3, Server.new "c" 1] ∧
      (∃ x ∈ [Server.new "a" 0, Server.new "b" 3, Server.new "c" 1],
        x.weight = maxWeight [Server.new "a" 0, Server.new "b" 3, Server.new "c" 1]) ∧
      (∀ x ∈ [Server.new "a" 0, Server.new "b" 3, Server.new "c" 1],
        x.weight ≤ maxWeight [Server.new "a" 0, Server.new "b" 3, Server.new "c" 1]) ∧
      r.position = s1.currentIndex ∧
      [Server.new "a" 0, Server.new "b" 3, Server.new "c" 1][s1.currentIndex]?
        = some r.server ∧
      r.server.weight ≥ s1.currentWeight :=
  ⟨by decide, by simp [Server.new],
    WeightedRoundRobin_state_invariant
      [Server.new "a" 0, Server.new "b" 3, Server.new "c" 1] (by decide)
      (by simp [Server.new]) 5 0⟩

/-! ### Weighted Round Robin: counting the selections of a run -/

/-- Consecutive sweeps: from the last position, `t N` passes make `t` sweeps, each
at the `currentWeight` that the wraparound computes from the previous one. -/
theorem WeightedRoundRobin.iterations_passes (servers : List Server)
    (h2 : 2 ≤ servers.length) (hnn : ∀ x ∈ servers, 0 ≤ x.weight)
    (p : Nat) (hp : p + 1 = servers.length) (t : Nat) :
    ∀ c : Int, WeightedRoundRobin.iterations (t * servers.length) ⟨servers, p, c⟩
      = .ok (acceptedInPasses servers t c,
          ⟨servers, p, Nat.iterate (nextWeight servers) t c⟩) := by
  induction t with
  | zero =>
    intro c
    simp [WeightedRoundRobin.iterations, acceptedInPasses]
  | succ t ih =>
    intro c
    have hmul : (t + 1) * servers.length = servers.length + t * servers.length := by
      rw [Nat.succ_mul, Nat.add_comm]
    rw [hmul]
    exact WeightedRoundRobin.iterations_add _ _ _ _ _ _ _
      (WeightedRoundRobin.iterations_sweep servers h2 hnn p c hp) (ih (nextWeight servers c))

/-- The references of `t + 1` sweeps are those of the first `t` sweeps followed by
those of the last one. -/
theorem acceptedInPasses_succ_last (servers : List Server) (t : Nat) :
    ∀ c : Int, acceptedInPasses servers (t + 1) c
      = acceptedInPasses servers t c
        ++ acceptedAt (Nat.iterate (nextWeight servers) (t + 1) c) servers 0 := by
  induction t with
  | zero =>
    intro c
    simp [acceptedInPasses]
  | succ t ih =>
    intro c
    have h := ih (nextWeight servers c)
    calc acceptedInPasses servers (t + 1 + 1) c
        = acceptedAt (nextWeight servers c) servers 0
            ++ acceptedInPasses servers (t + 1) (nextWeight servers c) := rfl
      _ = acceptedAt (nextWeight servers c) servers 0
            ++ (acceptedInPasses servers t (nextWeight servers c)
              ++ acceptedAt (Nat.iterate (nextWeight servers) (t + 1) (nextWeight servers c))
                servers 0) := by rw [h]
      _ = acceptedInPasses servers (t + 1) c
            ++ acceptedAt (Nat.iterate (nextWeight servers) (t + 1 + 1) c) servers 0 := by
          rw [← List.append_assoc]
          rfl

/-- The values of `currentWeight` in the sweeps of a fresh strategy when the
decrement `g` is positive and the maximum weight is `g L`: sweep number `t + 1`
runs at `maxWeight - t g`, for `t < L`. -/
theorem nextWeight_iterate (servers : List Server) (L : Nat)
    (hg : 0 < wrapDecrement servers)
    (hM : maxWeight servers = wrapDecrement servers * L) (t : Nat) (ht : t < L) :
    Nat.iterate (nextWeight servers) (t + 1) 0
      = maxWeight servers - t * wrapDecrement servers := by
  induction t with
  | zero =>
    have h0 : (0 : Int) - wrapDecrement servers ≤ 0 := by omega
    show nextWeight servers 0 = maxWeight servers - ((0 : Nat) : Int) * wrapDecrement servers
    unfold nextWeight
    rw [if_pos h0]
    simp
  | succ t ih =>
    rw [Function.iterate_succ_apply', ih (by omega)]
    have hpos : ¬ (maxWeight servers - t * wrapDecrement servers - wrapDecrement servers ≤ 0) := by
      rw [hM]
      have hlt : ((t + 1 : Nat) : Int) < (L : Int) := by exact_mod_cast ht
      push_cast at hlt
      nlinarith
    unfold nextWeight
    rw [if_neg hpos]
    push_cast
    ring

/-- The positions of the references accepted in a sweep over `xs`, stored from
position `j` on, lie from `j` up to the end of `xs`. -/
theorem acceptedAt_position_bounds (c : Int) (xs : List Server) :
    ∀ j, ∀ r ∈ acceptedAt c xs j, j ≤ r.position ∧ r.position < j + xs.length := by
  induction xs with
  | nil =>
    intro j r hr
    simp [acceptedAt] at hr
  | cons y ys ih =>
    intro j r hr
    by_cases hy : y.weight ≥ c
    · simp only [acceptedAt, hy, if_true, List.mem_cons] at hr
      rcases hr with hr | hr
      · subst hr
        simp
      · have := ih (j + 1) r hr
        simp only [List.length_cons]
        omega
    · simp only [acceptedAt, hy, if_false] at hr
      have := ih (j + 1) r hr
      simp only [List.length_cons]
      omega

/-- How often position `i` occurs among the references accepted in a sweep over
`xs`, stored from position `j` on: once if the server at `i` passes the test, not
at all otherwise. -/
theorem acceptedAt_count (c : Int) (xs : List Server) :
    ∀ (j i : Nat) (x : Server), j ≤ i → xs[i - j]? = some x →
      ((acceptedAt c xs j).map ServerRef.position).count i
        = if x.weight ≥ c then 1 else 0 := by
  induction xs with
  | nil =>
    intro j i x _ hx
    simp at hx
  | cons y ys ih =>
    intro j i x hji hx
    have hrest : ∀ r ∈ acceptedAt c ys (j + 1), j + 1 ≤ r.position :=
      fun r hr => (acceptedAt_position_bounds c ys (j + 1) r hr).1
    rcases Nat.eq_or_lt_of_le hji with heq | hlt
    · subst heq
      simp only [Nat.sub_self, List.getElem?_cons_zero, Option.some.injEq] at hx
      subst hx
      have hnot : ((acceptedAt c ys (j + 1)).map ServerRef.position).count j = 0 := by
        rw [List.count_eq_zero]
        intro hmem
        obtain ⟨r, hr, hrj⟩ := List.mem_map.mp hmem
        have := hrest r hr
        omega
      by_cases hy : y.weight ≥ c
      · simp [acceptedAt, hy, hnot]
      · simp [acceptedAt, hy, hnot]
    · have hsub : i - j = (i - (j + 1)) + 1 := by omega
      rw [hsub, List.getElem?_cons_succ] at hx
      have hih := ih (j + 1) i x (by omega) hx
      have hne : i ≠ j := by omega
      by_cases hy : y.weight ≥ c
      · simp only [acceptedAt, hy, if_true, List.map_cons]
        rw [List.count_cons_of_ne hne]
        exact hih
      · simp only [acceptedAt, hy, if_false]
        exact hih

/-- A positive multiple `w` of a positive `g` is `g` times its quotient, and the
quotient is at least 1. -/
theorem quotient_of_multiple (g w : Int) (hg : 0 < g) (hw : 0 < w) (hd : g ∣ w) :
    w = g * ((w / g).toNat : Int) ∧ 1 ≤ (w / g).toNat := by
  obtain ⟨k, hk⟩ := hd
  have hkpos : 0 < k := by
    by_contra hcon
    have hk0 : k ≤ 0 := by omega
    have : g * k ≤ 0 := Int.mul_nonpos_of_nonneg_of_nonpos (le_of_lt hg) hk0
    omega
  have hq : w / g = k := by
    rw [hk]
    exact Int.mul_ediv_cancel_left k (ne_of_gt hg)
  rw [hq]
  have hcast : ((k.toNat : Nat) : Int) = k := Int.toNat_of_nonneg (le_of_lt hkpos)
  constructor
  · rw [hcast]
    exact hk
  · omega

/-- The test `weight >= maxWeight - t g` of a sweep in terms of quotients by `g`:
with `weight = g A` and `maxWeight = g L`, it holds exactly when `A + t ≥ L`. -/
theorem accept_iff_quotients (g : Int) (hg : 0 < g) (A L t : Nat) :
    g * (A : Int) ≥ g * (L : Int) - (t : Int) * g ↔ L ≤ A + t := by
  constructor
  · intro h
    by_contra hcon
    have hlt : ((A + t + 1 : Nat) : Int) ≤ (L : Int) := by exact_mod_cast (by omega : A + t + 1 ≤ L)
    push_cast at hlt
    nlinarith
  · intro h
    have hle : (L : Int) ≤ ((A + t : Nat) : Int) := by exact_mod_cast h
    push_cast at hle
    nlinarith

/-- How often position `i` is returned in the first `t` sweeps of a fresh strategy,
when the decrement `g` is positive, the weight at `i` is `g A` and the maximum
weight is `g L`, for `t ≤ L`: `A + t - L` times. -/
theorem acceptedInPasses_count (servers : List Server) (L A : Nat)
    (hg : 0 < wrapDecrement servers)
    (hM : maxWeight servers = wrapDecrement servers * L)
    (i : Nat) (x : Server) (hx : servers[i]? = some x)
    (hA : x.weight = wrapDecrement servers * A) (hAL : A ≤ L) (t : Nat) (ht : t ≤ L) :
    ((acceptedInPasses servers t 0).map ServerRef.position).count i = A + t - L := by
  induction t with
  | zero =>
    simp only [acceptedInPasses, List.map_nil, List.count_nil]
    omega
  | succ t ih =>
    rw [acceptedInPasses_succ_last, List.map_append, List.count_append, ih (by omega),
      acceptedAt_count _ servers 0 i x (Nat.zero_le i) (by simpa using hx),
      nextWeight_iterate servers L hg hM t (by omega), hM, hA]
    by_cases hacc : L ≤ A + t
    · rw [if_pos ((accept_iff_quotients _ hg A L t).mpr hacc)]
      omega
    · rw [if_neg (fun h => hacc ((accept_iff_quotients _ hg A L t).mp h))]
      omega

/-- The run of a fresh `WeightedRoundRobin` up to the first pass of the sweep at
`currentWeight = g`, on a pool `a :: tail` of at least two servers with positive
weights, when the decrement `g` is positive and the maximum weight is `g L` with
`L ≥ 1`: the passes return the servers after the first one, then what `L - 1`
sweeps return, then the first server. -/
theorem WeightedRoundRobin.iterations_fresh_cycle (a : Server) (tail : List Server)
    (h2 : 2 ≤ (a :: tail).length) (hpos : ∀ x ∈ a :: tail, 0 < x.weight)
    (L : Nat) (hL : 1 ≤ L) (hg : 0 < wrapDecrement (a :: tail))
    (hM : maxWeight (a :: tail) = wrapDecrement (a :: tail) * L)
    (ha : wrapDecrement (a :: tail) ≤ a.weight) :
    ∃ s1, WeightedRoundRobin.iterations
        (tail.length + ((L - 1) * (a :: tail).length + 1))
        (WeightedRoundRobin.new (a :: tail))
      = .ok (acceptedAt 0 tail 1
          ++ (acceptedInPasses (a :: tail) (L - 1) 0 ++ [⟨0, a⟩]), s1) := by
  have hnn : ∀ x ∈ a :: tail, 0 ≤ x.weight := fun x hx => le_of_lt (hpos x hx)
  have hp : 0 + tail.length + 1 = (a :: tail).length := by simp
  have h1 := WeightedRoundRobin.iterations_restOfSweep (a :: tail) 0 tail [a] 0 rfl rfl
  have h3 := WeightedRoundRobin.iterations_passes (a :: tail) h2 hnn (0 + tail.length) hp
    (L - 1) 0
  have hlevel : nextWeight (a :: tail) (Nat.iterate (nextWeight (a :: tail)) (L - 1) 0)
      = wrapDecrement (a :: tail) := by
    rw [← Function.iterate_succ_apply' (nextWeight (a :: tail)) (L - 1) 0,
      nextWeight_iterate (a :: tail) L hg hM (L - 1) (by omega), hM]
    have hcast : ((L - 1 : Nat) : Int) = (L : Int) - 1 := by
      rw [Nat.cast_sub hL]
      simp
    rw [hcast]
    ring
  have h4 : WeightedRoundRobin.iterations 1
      ⟨a :: tail, 0 + tail.length, Nat.iterate (nextWeight (a :: tail)) (L - 1) 0⟩
      = .ok ([⟨0, a⟩], ⟨a :: tail, 0, wrapDecrement (a :: tail)⟩) := by
    simp only [WeightedRoundRobin.iterations,
      WeightedRoundRobin.iteration_wrap (a :: tail) h2 hnn _ _ hp, hlevel,
      WeightedRoundRobin.accept_inRange (a :: tail) 0 _ (by simp), List.getElem_cons_zero]
    simp [ha]
  have h34 := WeightedRoundRobin.iterations_add _ _ _ _ _ _ _ h3 h4
  have hall := WeightedRoundRobin.iterations_add _ _ _ _ _ _ _ h1 h34
  exact ⟨_, hall⟩

/-- The positions of the references returned in sweeps over the whole pool lie
inside the pool. -/
theorem acceptedInPasses_position_lt (servers : List Server) (t : Nat) :
    ∀ (c : Int), ∀ r ∈ acceptedInPasses servers t c, r.position < servers.length := by
  induction t with
  | zero =>
    intro c r hr
    simp [acceptedInPasses] at hr
  | succ t ih =>
    intro c r hr
    simp only [acceptedInPasses, List.mem_append] at hr
    rcases hr with hr | hr
    · have := (acceptedAt_position_bounds _ servers 0 r hr).2
      omega
    · exact ih _ r hr

/-- A list of positions below `n` is as long as the sum, over the positions below
`n`, of the number of times each occurs. -/
theorem sum_count_range (n : Nat) (l : List Nat) (h : ∀ x ∈ l, x < n) :
    Finset.sum (Finset.range n) (fun i => l.count i) = l.length := by
  induction l with
  | nil => simp
  | cons y ys ih =>
    have hy : y < n := h y (List.mem_cons_self y ys)
    have hys : ∀ x ∈ ys, x < n := fun x hx => h x (List.mem_cons_of_mem y hx)
    have hone : Finset.sum (Finset.range n) (fun i => if y = i then 1 else 0) = 1 := by
      rw [Finset.sum_ite_eq]
      simp [hy]
    simp only [List.count_cons, beq_iff_eq, Finset.sum_add_distrib, ih hys, hone,
      List.length_cons]

/-- Summing a quantity of the server at each position of the pool gives the sum
over the pool. -/
theorem sum_over_positions (f : Server → Nat) (servers : List Server) :
    Finset.sum (Finset.range servers.length)
        (fun i => match servers[i]? with
          | some x => f x
          | none => 0)
      = (servers.map f).sum := by
  induction servers with
  | nil => simp
  | cons y ys ih =>
    rw [List.length_cons, Finset.sum_range_succ']
    simp only [List.getElem?_cons_succ, List.getElem?_cons_zero, List.map_cons,
      List.sum_cons, ih]
    omega

/-- For positive weights that are all multiples of a positive `g`, the quotients
by `g` add up to the quotient of the total weight. -/
theorem sum_quotients (g : Int) (hg : 0 < g) (servers : List Server)
    (hpos : ∀ x ∈ servers, 0 < x.weight) (hdiv : ∀ x ∈ servers, g ∣ x.weight) :
    (servers.map (fun x => (x.weight / g).toNat)).sum = (totalWeight servers / g).toNat ∧
      0 ≤ totalWeight servers := by
  induction servers with
  | nil => simp [totalWeight]
  | cons y ys ih =>
    obtain ⟨hsum, hnonneg⟩ := ih (fun x hx => hpos x (List.mem_cons_of_mem y hx))
      (fun x hx => hdiv x (List.mem_cons_of_mem y hx))
    have hy : 0 < y.weight := hpos y (List.mem_cons_self y ys)
    have hdy : g ∣ y.weight := hdiv y (List.mem_cons_self y ys)
    have htot : totalWeight (y :: ys) = y.weight + totalWeight ys := by
      simp [totalWeight]
    have hq1 : 0 ≤ y.weight / g := Int.ediv_nonneg (le_of_lt hy) (le_of_lt hg)
    have hq2 : 0 ≤ totalWeight ys / g := Int.ediv_nonneg hnonneg (le_of_lt hg)
    refine ⟨?_, by rw [htot]; omega⟩
    rw [htot, Int.add_ediv_of_dvd_left hdy, Int.toNat_add hq1 hq2, ← hsum]
    simp

/-- Weight-proportional selection when the decrement divides every weight: on a
pool `a :: b :: rest` with positive weights that are all multiples of
`gcd(a.weight, b.weight)`, the first `(sum of weights) / gcd` calls of a fresh
strategy return the server at each position `weight / gcd` times. -/
theorem WeightedRoundRobin.proportional_of_gcd_divides (a b : Server)
    (rest : List Server) (hpos : ∀ x ∈ a :: b :: rest, 0 < x.weight)
    (hdiv : ∀ x ∈ a :: b :: rest, (Int.gcd a.weight b.weight : Int) ∣ x.weight)
    (extra : Nat) :
    ∃ sel, selectedPositions
        (WeightedRoundRobin.getNextServer (2 * (a :: b :: rest).length + extra))
        (totalWeight (a :: b :: rest) / (Int.gcd a.weight b.weight : Int)).toNat
        (WeightedRoundRobin.new (a :: b :: rest)) = .ok sel ∧
      ∀ (i : Nat) (x : Server), (a :: b :: rest)[i]? = some x →
        sel.count i = (x.weight / (Int.gcd a.weight b.weight : Int)).toNat := by
  have h2 : 2 ≤ (a :: b :: rest).length := by simp
  have hne : a :: b :: rest ≠ [] := by simp
  have hnn : ∀ x ∈ a :: b :: rest, 0 ≤ x.weight := fun x hx => le_of_lt (hpos x hx)
  have hwd : wrapDecrement (a :: b :: rest) = (Int.gcd a.weight b.weight : Int) := rfl
  have hapos : 0 < a.weight := hpos a (by simp)
  have hg : 0 < wrapDecrement (a :: b :: rest) := by
    rw [hwd]
    exact_mod_cast Int.gcd_pos_of_ne_zero_left b.weight (ne_of_gt hapos)
  rw [← hwd] at hdiv ⊢
  obtain ⟨im, m, _, hmw, hmget, hmle⟩ := maxWeight_spec (a :: b :: rest) hne
  have hmmem : m ∈ a :: b :: rest := List.getElem?_mem hmget
  have hMpos : 0 < maxWeight (a :: b :: rest) := by
    rw [← hmw]
    exact hpos m hmmem
  obtain ⟨hM, hL⟩ := quotient_of_multiple _ _ hg hMpos (by rw [← hmw]; exact hdiv m hmmem)
  have ha : wrapDecrement (a :: b :: rest) ≤ a.weight :=
    Int.le_of_dvd hapos (hdiv a (by simp))
  obtain ⟨s1, hrun⟩ := WeightedRoundRobin.iterations_fresh_cycle a (b :: rest) h2 hpos
    _ hL hg hM ha
  -- the number of times each position occurs in the run
  have hcount : ∀ (i : Nat) (x : Server), (a :: b :: rest)[i]? = some x →
      ((acceptedAt 0 (b :: rest) 1
          ++ (acceptedInPasses (a :: b :: rest)
              ((maxWeight (a :: b :: rest) / wrapDecrement (a :: b :: rest)).toNat - 1) 0
            ++ [(⟨0, a⟩ : ServerRef)])).map ServerRef.position).count i
        = (x.weight / wrapDecrement (a :: b :: rest)).toNat := by
    intro i x hx
    have hxmem : x ∈ a :: b :: rest := List.getElem?_mem hx
    obtain ⟨hA, hA1⟩ := quotient_of_multiple _ _ hg (hpos x hxmem) (hdiv x hxmem)
    have hAL : (x.weight / wrapDecrement (a :: b :: rest)).toNat
        ≤ (maxWeight (a :: b :: rest) / wrapDecrement (a :: b :: rest)).toNat := by
      have hle := hmle x hxmem
      rw [hM] at hle
      have hle2 : wrapDecrement (a :: b :: rest)
            * ((x.weight / wrapDecrement (a :: b :: rest)).toNat : Int)
          ≤ wrapDecrement (a :: b :: rest)
            * ((maxWeight (a :: b :: rest) / wrapDecrement (a :: b :: rest)).toNat : Int) := by
        rw [← hA]
        exact hle
      exact_mod_cast le_of_mul_le_mul_left hle2 hg
    have hmid := acceptedInPasses_count (a :: b :: rest) _ _ hg hM i x hx hA hAL
      ((maxWeight (a :: b :: rest) / wrapDecrement (a :: b :: rest)).toNat - 1) (by omega)
    rw [List.map_append, List.map_append, List.count_append, List.count_append, hmid]
    cases i with
    | zero =>
      have hfirst : ((acceptedAt 0 (b :: rest) 1).map ServerRef.position).count 0 = 0 := by
        rw [List.count_eq_zero]
        intro hmem
        obtain ⟨r, hr, hr0⟩ := List.mem_map.mp hmem
        have := (acceptedAt_position_bounds 0 (b :: rest) 1 r hr).1
        omega
      rw [hfirst]
      simp
      omega
    | succ i =>
      have hx1 : (b :: rest)[i + 1 - 1]? = some x := by simpa using hx
      have hfirst := acceptedAt_count 0 (b :: rest) 1 (i + 1) x (by omega) hx1
      rw [if_pos (le_of_lt (hpos x hxmem))] at hfirst
      rw [hfirst]
      simp
      omega
  -- the positions returned lie inside the pool, so the run has as many
  -- references as the quotients add up to
  have hbound : ∀ q ∈ (acceptedAt 0 (b :: rest) 1
      ++ (acceptedInPasses (a :: b :: rest)
          ((maxWeight (a :: b :: rest) / wrapDecrement (a :: b :: rest)).toNat - 1) 0
        ++ [(⟨0, a⟩ : ServerRef)])).map ServerRef.position, q < (a :: b :: rest).length := by
    intro q hq
    obtain ⟨r, hr, hrq⟩ := List.mem_map.mp hq
    subst hrq
    simp only [List.mem_append, List.mem_singleton] at hr
    rcases hr with hr | hr | hr
    · have := (acceptedAt_position_bounds 0 (b :: rest) 1 r hr).2
      simp only [List.length_cons] at this ⊢
      omega
    · exact acceptedInPasses_position_lt _ _ _ r hr
    · subst hr
      simp
  have hlen : (acceptedAt 0 (b :: rest) 1
      ++ (acceptedInPasses (a :: b :: rest)
          ((maxWeight (a :: b :: rest) / wrapDecrement (a :: b :: rest)).toNat - 1) 0
        ++ [(⟨0, a⟩ : ServerRef)])).length
      = (totalWeight (a :: b :: rest) / wrapDecrement (a :: b :: rest)).toNat := by
    rw [← (sum_quotients _ hg (a :: b :: rest) hpos hdiv).1, ← sum_over_positions,
      ← List.length_map _ ServerRef.position, ← sum_count_range _ _ hbound]
    apply Finset.sum_congr rfl
    intro i hi
    have hi2 : i < (a :: b :: rest).length := Finset.mem_range.mp hi
    have hget : (a :: b :: rest)[i]? = some (a :: b :: rest)[i] :=
      List.getElem?_eq_getElem hi2
    rw [hcount i _ hget, hget]
  -- from the run of passes to the run of calls
  obtain ⟨s2, hcalls⟩ := WeightedRoundRobin.callN_of_iterations _ _ _ _
    (totalWeight (a :: b :: rest) / wrapDecrement (a :: b :: rest)).toNat hrun
    (le_of_eq hlen.symm)
  rw [← hlen, List.take_length] at hcalls
  rw [← hlen]
  obtain ⟨sel1, s3, hterm⟩ := WeightedRoundRobin.callN_terminates (a :: b :: rest) h2 hnn
    extra (acceptedAt 0 (b :: rest) 1
      ++ (acceptedInPasses (a :: b :: rest)
          ((maxWeight (a :: b :: rest) / wrapDecrement (a :: b :: rest)).toNat - 1) 0
        ++ [(⟨0, a⟩ : ServerRef)])).length 0 0 (by omega) (le_refl 0) (le_of_lt hMpos)
  have hm1 := WeightedRoundRobin.callN_fuel_mono _
    (2 * (a :: b :: rest).length + extra) _ _ _ hcalls
  have hm2 := WeightedRoundRobin.callN_fuel_mono _
    ((b :: rest).length
      + (((maxWeight (a :: b :: rest) / wrapDecrement (a :: b :: rest)).toNat - 1)
        * (a :: b :: rest).length + 1)) _ _ _ hterm
  rw [Nat.add_comm] at hm2
  rw [WeightedRoundRobin.new] at hm1
  rw [hm1] at hm2
  injection hm2 with hm2
  injection hm2 with hsel _
  refine ⟨_, ?_, hcount⟩
  simp only [selectedPositions, WeightedRoundRobin.new, hterm, ← hsel]

/-- Claim C18.  For every pool `a :: b :: rest` of at least two servers with
positive weights in which `g = gcd(a.weight, b.weight)`, the greatest common
divisor of the first two weights, divides every weight, and for every bound of
at least `2 N` passes per call, the first `(sum of weights) / g` calls of a fresh
`WeightedRoundRobin` return, and among the references returned the server at
each position `i` occurs exactly `weight_i / g` times.  In particular this holds
for every pool of two servers with positive weights. -/
theorem WeightedRoundRobin_proportional_when_gcd_divides :
    (∀ (a b : Server) (rest : List Server), (∀ x ∈ a :: b :: rest, 0 < x.weight) →
      (∀ x ∈ a :: b :: rest, (Int.gcd a.weight b.weight : Int) ∣ x.weight) →
      ∀ extra : Nat, ∃ sel, selectedPositions
          (WeightedRoundRobin.getNextServer (2 * (a :: b :: rest).length + extra))
          (totalWeight (a :: b :: rest) / (Int.gcd a.weight b.weight : Int)).toNat
          (WeightedRoundRobin.new (a :: b :: rest)) = .ok sel ∧
        ∀ (i : Nat) (x : Server), (a :: b :: rest)[i]? = some x →
          sel.count i = (x.weight / (Int.gcd a.weight b.weight : Int)).toNat) ∧
    (∀ (a b : Server), 0 < a.weight → 0 < b.weight →
      ∀ extra : Nat, ∃ sel, selectedPositions
          (WeightedRoundRobin.getNextServer (2 * [a, b].length + extra))
          (totalWeight [a, b] / (Int.gcd a.weight b.weight : Int)).toNat
          (WeightedRoundRobin.new [a, b]) = .ok sel ∧
        sel.count 0 = (a.weight / (Int.gcd a.weight b.weight : Int)).toNat ∧
        sel.count 1 = (b.weight / (Int.gcd a.weight b.weight : Int)).toNat) := by
  refine ⟨WeightedRoundRobin.proportional_of_gcd_divides, ?_⟩
  intro a b ha hb extra
  have hpos : ∀ x ∈ [a, b], 0 < x.weight := by
    intro x hx
    simp only [List.mem_cons, List.mem_singleton, List.not_mem_nil, or_false] at hx
    rcases hx with h | h
    · rw [h]
      exact ha
    · rw [h]
      exact hb
  have hdiv : ∀ x ∈ [a, b], (Int.gcd a.weight b.weight : Int) ∣ x.weight := by
    intro x hx
    simp only [List.mem_cons, List.mem_singleton, List.not_mem_nil, or_false] at hx
    rcases hx with h | h
    · rw [h]
      exact Int.gcd_dvd_left
    · rw [h]
      exact Int.gcd_dvd_right
  obtain ⟨sel, hsel, hcount⟩ :=
    WeightedRoundRobin.proportional_of_gcd_divides a b [] hpos hdiv extra
  exact ⟨sel, hsel, hcount 0 a rfl, hcount 1 b rfl⟩

/-- Claim C18 at the pool with weights 2, 4, 6, where the greatest common divisor
of the first two weights is 2: the first `12 / 2 = 6` selections are the positions
1, 2, 2, 1, 2, 0. -/
theorem WeightedRoundRobin_proportional_when_gcd_divides_witness :
    (∀ x ∈ [Server.new "a" 2, Server.new "b" 4, Server.new "c" 6], 0 < x.weight) ∧
    (∀ x ∈ [Server.new "a" 2, Server.new "b" 4, Server.new "c" 6],
      (Int.gcd (Server.new "a" 2).weight (Server.new "b" 4).weight : Int) ∣ x.weight) ∧
    selectedPositions (WeightedRoundRobin.getNextServer 6) 6
        (WeightedRoundRobin.new [Server.new "a" 2, Server.new "b" 4, Server.new "c" 6])
      = .ok [1, 2, 2, 1, 2, 0] ∧
    ∃ sel, selectedPositions
        (WeightedRoundRobin.getNextServer
          (2 * [Server.new "a" 2, Server.new "b" 4, Server.new "c" 6].length + 0))
        (totalWeight [Server.new "a" 2, Server.new "b" 4, Server.new "c" 6]
          / (Int.gcd (Server.new "a" 2).weight (Server.new "b" 4).weight : Int)).toNat
        (WeightedRoundRobin.new [Server.new "a" 2, Server.new "b" 4, Server.new "c" 6])
        = .ok sel ∧
      ∀ (i : Nat) (x : Server),
        [Server.new "a" 2, Server.new "b" 4, Server.new "c" 6][i]? = some x →
        sel.count i
          = (x.weight
            / (Int.gcd (Server.new "a" 2).weight (Server.new "b" 4).weight : Int)).toNat :=
  ⟨by decide, by decide, rfl,
    WeightedRoundRobin_proportional_when_gcd_divides.1 (Server.new "a" 2)
      (Server.new "b" 4) [Server.new "c" 6] (by decide) (by decide) 0⟩

end LoadBalancing
